import Mathlib

/-!
Verification of the AMUSEt-TICA implementation (`amuset_tica.py`).

The numeric arrays of the program are embedded as lists of exact rationals
(`Vec`, `Mat`): each numpy 1-D array becomes a `List ℚ` and each 2-D array a
list of rows.  Complex scalars (possible eigenvalues of the Koopman matrix)
are pairs of rationals.  The external numeric library routines that the code
calls — `scipy.linalg.svd`, `numpy.linalg.eig`, `numpy.linalg.inv`,
`numpy.exp`, `numpy.log` — are oracles passed in as function parameters
(`SvdFn`, `EigFn`, `InvFn`, `GaussFn`, `LogFn`, `CInvFn`); theorems that need
analytic facts about them (for instance that the SVD factorisation really
factors its input) take those facts as explicit hypotheses on the oracle at
the matrices where the code invokes it.  Everything else — the tensor-train
loop of `_build_outer_product`, the bookkeeping of compression layers, the
index generation of `covariance`, sorting, truncation, slicing, persistence —
is translated directly from the source.  Python leading underscores are kept
in names where Lean accepts them.
-/

/-- Row vectors over exact rationals (numpy 1-D float arrays). -/
abbrev Vec := List ℚ

/-- Matrices as lists of rows (numpy 2-D float arrays). -/
abbrev Mat := List Vec

/-- Complex scalars as (real part, imaginary part). -/
abbrev Cplx := ℚ × ℚ

/-- Complex matrices as lists of rows. -/
abbrev CMat := List (List Cplx)

/-- The complex zero. -/
def czero : Cplx := (0, 0)

/-- Complex addition. -/
def cadd (a b : Cplx) : Cplx := (a.1 + b.1, a.2 + b.2)

/-- Complex multiplication. -/
def cmul (a b : Cplx) : Cplx := (a.1 * b.1 - a.2 * b.2, a.1 * b.2 + a.2 * b.1)

/-- Dot product of two rational vectors (extra entries of the longer vector are
ignored, matching a numpy shape-correct call). -/
def dot (a b : Vec) : ℚ := (List.zipWith (fun x y => x * y) a b).sum

/-- Dot product of two complex vectors. -/
def cdot (a b : List Cplx) : Cplx := (List.zipWith cmul a b).foldr cadd czero

/-- Transpose of a list-of-rows matrix; the column count is read off the first
row, as numpy does for its rectangular arrays.  `pad` is only used for entries
outside a (well-formed) rectangular matrix. -/
def transposeP {α : Type} (pad : α) (m : List (List α)) : List (List α) :=
  (List.range ((m.headD []).length)).map (fun j => m.map (fun r => r.getD j pad))

/-- Transpose of a rational matrix (numpy `.T`). -/
def transposeM (m : Mat) : Mat := transposeP 0 m

/-- Transpose of a complex matrix. -/
def ctransposeM (m : CMat) : CMat := transposeP czero m

/-- Matrix product (numpy `matmul`) over the rationals. -/
def matMul (A B : Mat) : Mat := A.map (fun r => (transposeM B).map (fun c => dot r c))

/-- Matrix product over the complex rationals. -/
def cmatMul (A B : CMat) : CMat := A.map (fun r => (ctransposeM B).map (fun c => cdot r c))

/-- Elementwise matrix sum. -/
def matAdd (A B : Mat) : Mat :=
  List.zipWith (fun r t => List.zipWith (fun x y => x + y) r t) A B

/-- Square diagonal matrix with diagonal `s` (numpy `diag`). -/
def diagMat (s : Vec) : Mat :=
  (List.range s.length).map
    (fun i => (List.range s.length).map (fun j => if i = j then s.getD i 0 else 0))

/-- Row selection `m[idx]` by a list of row indices (numpy fancy indexing). -/
def selectRows {α : Type} (m : List (List α)) (idx : List ℕ) : List (List α) :=
  idx.map (fun i => m.getD i [])

/-- Cut a list of rows into consecutive blocks of the given lengths: the
common slicing pattern `all_data[op:op+traj_lens[it]]` with a running offset
used by `_transform` and `_convert_to_sequences`. -/
def sliceByLens {α : Type} : List α → List ℕ → List (List α)
  | _, [] => []
  | rows, n :: rest => rows.take n :: sliceByLens (rows.drop n) rest

/-- Horizontal concatenation of matrices with equal row counts
(numpy `hstack`). -/
def hstack : List Mat → Mat
  | [] => []
  | [m] => m
  | m :: m2 :: ms => List.zipWith (fun r t => r ++ t) m (hstack (m2 :: ms))

/-- Cast a rational matrix to a complex one. -/
def castC (m : Mat) : CMat := m.map (fun r => r.map (fun q => (q, (0 : ℚ))))

/-- The index permutation `numpy.argsort(s)[::-1]` sorting `s` into
non-increasing order. -/
def argsortDesc (s : Vec) : List ℕ :=
  (List.insertionSort (fun i j => s.getD i 0 ≤ s.getD j 0) (List.range s.length)).reverse

/-- numpy compares complex values lexicographically: first by real part, then
by imaginary part. -/
def cLe (a b : Cplx) : Prop := a.1 < b.1 ∨ (a.1 = b.1 ∧ a.2 ≤ b.2)

instance : DecidableRel cLe := fun a b => by unfold cLe; infer_instance

/-- `numpy.argsort(ev)[::-1]` on a complex vector. -/
def cargsortDesc (s : List Cplx) : List ℕ :=
  (List.insertionSort (fun i j => cLe (s.getD i czero) (s.getD j czero)) (List.range s.length)).reverse

/-- `numpy.arange(a, b)`: empty whenever `b ≤ a`. -/
def arange (a b : ℤ) : List ℤ := (List.range (b - a).toNat).map (fun k => a + (k : ℤ))

/-- `shape[1]` of a list-of-rows matrix. -/
def numCols (m : Mat) : ℕ := (m.headD []).length

/-- A basis list: per feature dimension, a list of (mean, sigma) pairs. -/
abbrev BasisList := List (List (ℚ × ℚ))

/-- Oracle for the elementwise Gaussian `numpy.exp(-(x-mean)**2/2/sigma**2)`;
applied as `g mean sigma x`.  The claims below do not depend on the analytic
form of the exponential, so it stays abstract. -/
abbrev GaussFn := ℚ → ℚ → ℚ → ℚ

/-- Oracle for `scipy.linalg.svd(outer, full_matrices=False)`, returning
`(u, s, v)`. -/
abbrev SvdFn := Mat → Mat × Vec × Mat

/-- Oracle for `numpy.linalg.inv` on real matrices. -/
abbrev InvFn := Mat → Mat

/-- Oracle for `numpy.linalg.eig`, returning (eigenvalues, right-eigenvector
matrix whose columns are the eigenvectors). -/
abbrev EigFn := Mat → List Cplx × CMat

/-- Oracle for the natural logarithm used in the timescale formula.  The code
only reaches the logarithm when `numpy.linalg.eig` returned a real array
(otherwise the comparison `ev > 0` on a complex dtype raises), so the oracle
consumes the eigenvalue and produces a rational. -/
abbrev LogFn := Cplx → ℚ

/-- Oracle for `numpy.linalg.inv` on complex matrices (left-eigenvector path
of `_transform`). -/
abbrev CInvFn := CMat → CMat

/-- The model state of class `AmusetTICA`: the fields set by `__init__`, with
Python's leading underscores dropped (`_tt_u` becomes `tt_u`, and so on). -/
structure AmusetTICA where
  max_rank : ℤ
  basis_list : BasisList := []
  tt_u : List Mat := []
  tt_s : List Vec := []
  tt_indices : List (List ℕ) := []
  tt_intra_svd_layers : ℕ := 0
  traj_lens : List ℕ := []
  rank_used : ℕ := 0
  K : Mat := []
  ev_K : List Cplx := []
  vr_K : CMat := []
  lagtime : ℤ := 0
  timescales : List ℚ := []

/-- `AmusetTICA(max_rank)`: the freshly constructed model. -/
def AmusetTICA.init (max_rank : ℤ) : AmusetTICA := { max_rank := max_rank }

/-- `AmusetTICA.does_basis_overflow`: multiplies `len(basis_list[i])+1` over
`i in range(len(basis_list)-1)` and compares with `max_rank`. -/
def AmusetTICA.does_basis_overflow (self : AmusetTICA) (basis_list : BasisList) : Bool :=
  if 0 < self.max_rank then
    let outer_rank_overflow :=
      (List.range (basis_list.length - 1)).foldl
        (fun acc i => acc * (((basis_list.getD i []).length : ℤ) + 1)) 1
    decide (self.max_rank < outer_rank_overflow)
  else false

/-- Module-level `_convert_sequences`: transpose every trajectory from
[frames × features] to [features × frames] and `hstack` them in order; the
length table records each trajectory's frame count. -/
def _convert_sequences (sequences : List Mat) : Mat × List ℕ :=
  (hstack (sequences.map transposeM), sequences.map List.length)

/-- Module-level `_convert_to_sequences`: orientation auto-detection
(`if len(data) > len(data[0])` keep, else transpose) followed by slicing into
per-trajectory row blocks. -/
def _convert_to_sequences (data : Mat) (traj_lens : List ℕ) : List Mat :=
  let data_ := if (data.getD 0 []).length < data.length then data else transposeM data
  sliceByLens data_ traj_lens

/-- The local basis expansion `outer_b` for one feature dimension: an all-ones
row followed by one Gaussian response row per basis function. -/
def gaussBasisRows (g : GaussFn) (basis_il : List (ℚ × ℚ)) (row : Vec) (data_length : ℕ) : Mat :=
  List.replicate data_length 1 :: basis_il.map (fun ms => row.map (fun x => g ms.1 ms.2 x))

/-- The pairwise-product expansion
`outer = [a * b for a in outer_a for b in outer_b]` (basis index innermost). -/
def outerKron (outer_a outer_b : Mat) : Mat :=
  (outer_a.map (fun ra => outer_b.map (fun rb => List.zipWith (fun x y => x * y) ra rb))).flatten

/-- One iteration of the `for il in range(len(basis_list))` loop of
`_build_outer_product`, in source order: optional SVD compression (learned
when `build_model`, replayed from layer `i` otherwise), truncation of the
outer set to `max_rank` rows, update of `_tt_intra_svd_layers` in build mode,
then the outer product with the local basis expansion of dimension `il`.
The final component of the result is the loop variable `i_intra_svd_layer`. -/
def buildOuterStep (g : GaussFn) (svdFn : SvdFn) (build_model : Bool) (data_matrix : Mat)
    (data_length : ℕ) (b : List (ℚ × ℚ)) (il : ℕ) (outer : Mat) (st : AmusetTICA) (i : ℕ) :
    Mat × AmusetTICA × ℕ :=
  let step : Mat × AmusetTICA × ℕ :=
    if 0 < st.max_rank then
      if build_model then
        let usv := svdFn outer
        let indices := argsortDesc usv.2.1
        (selectRows usv.2.2 indices,
         { st with tt_u := st.tt_u ++ [usv.1], tt_s := st.tt_s ++ [usv.2.1],
                   tt_indices := st.tt_indices ++ [indices] },
         i + 1)
      else
        let u := st.tt_u.getD i []
        let s := st.tt_s.getD i []
        let indices := st.tt_indices.getD i []
        let transform_v :=
          matMul (matMul (diagMat (s.map (fun x => 1 / x))) (transposeM u)) outer
        (selectRows transform_v indices, st, i + 1)
    else (outer, st, i)
  let outer2 :=
    if 0 < step.2.1.max_rank ∧ step.2.1.max_rank < (step.1.length : ℤ) then
      step.1.take step.2.1.max_rank.toNat
    else step.1
  let st2 := if build_model then { step.2.1 with tt_intra_svd_layers := step.2.2 } else step.2.1
  let outer_b := gaussBasisRows g b (data_matrix.getD il []) data_length
  (outerKron outer2 outer_b, st2, step.2.2)

/-- The loop of `_build_outer_product`: fold `buildOuterStep` over the basis
list, threading the outer set, the model state and `i_intra_svd_layer`. -/
def buildOuterLoop (g : GaussFn) (svdFn : SvdFn) (build_model : Bool) (data_matrix : Mat)
    (data_length : ℕ) : BasisList → ℕ → Mat → AmusetTICA → ℕ → Mat × AmusetTICA × ℕ
  | [], _, outer, st, i => (outer, st, i)
  | b :: bs, il, outer, st, i =>
      let r := buildOuterStep g svdFn build_model data_matrix data_length b il outer st i
      buildOuterLoop g svdFn build_model data_matrix data_length bs (il + 1) r.1 r.2.1 r.2.2

/-- `AmusetTICA._build_outer_product`: starts from the single all-ones row of
length `shape[1]` and folds the loop body over the basis list.  Besides the
expanded outer set the embedding also returns the updated model state and the
final value of the local counter `i_intra_svd_layer`. -/
def AmusetTICA._build_outer_product (self : AmusetTICA) (g : GaussFn) (svdFn : SvdFn)
    (basis_list : BasisList) (data_matrix : Mat) (build_model : Bool) : Mat × AmusetTICA × ℕ :=
  let data_length := numCols data_matrix
  buildOuterLoop g svdFn build_model data_matrix data_length basis_list 0
    [List.replicate data_length 1] self 0

/-- `AmusetTICA.build`: store the basis list, clear the layer store, convert
the trajectories, run the outer-product builder in fitting mode, then one
final SVD with descending sort, rank truncation (the source compares
`len(cvs[0])`, the column count, against `max_rank`), appending of the final
compression layer and recording of `rank_used`. -/
def AmusetTICA.build (self : AmusetTICA) (g : GaussFn) (svdFn : SvdFn)
    (basis_list : BasisList) (sequences : List Mat) : (Mat × List ℕ) × AmusetTICA :=
  let st0 := { self with basis_list := basis_list, tt_u := [], tt_s := [], tt_indices := [] }
  let conv := _convert_sequences sequences
  let st1 := { st0 with traj_lens := conv.2 }
  let bo := st1._build_outer_product g svdFn basis_list conv.1 true
  let usv := svdFn bo.1
  let indices := argsortDesc usv.2.1
  let cvs0 := selectRows usv.2.2 indices
  let cvs :=
    if 0 < bo.2.1.max_rank ∧ bo.2.1.max_rank < (((cvs0.getD 0 []).length : ℤ)) then
      cvs0.take bo.2.1.max_rank.toNat
    else cvs0
  let st2 := { bo.2.1 with tt_u := bo.2.1.tt_u ++ [usv.1], tt_s := bo.2.1.tt_s ++ [usv.2.1],
                           tt_indices := bo.2.1.tt_indices ++ [indices], rank_used := cvs.length }
  ((cvs, conv.2), st2)

/-- The index-pair generation loop of `covariance`: per trajectory the source
indices `arange(pos, pos + len - lag_time)` and target indices
`arange(pos + lag_time, pos + len)`, concatenated in trajectory order while
`pos` advances by the trajectory length. -/
def covIndicesLoop (lag_time : ℤ) : List ℕ → ℤ → List ℤ × List ℤ
  | [], _ => ([], [])
  | n :: rest, pos =>
      let tailidx := covIndicesLoop lag_time rest (pos + (n : ℤ))
      (arange pos (pos + (n : ℤ) - lag_time) ++ tailidx.1,
       arange (pos + lag_time) (pos + (n : ℤ)) ++ tailidx.2)

/-- Column gather `input_data[:, indices]`. -/
def selectColsZ (m : Mat) (idx : List ℤ) : Mat :=
  m.map (fun r => idx.map (fun i => r.getD i.toNat 0))

/-- The Koopman matrix of `covariance`:
`inv(C00 + C11) @ (C01 + C01.T)` over the gathered column subsets. -/
def koopmanMatrix (invFn : InvFn) (input_data : Mat) (traj_lens : List ℕ) (lag_time : ℤ) : Mat :=
  let xy := covIndicesLoop lag_time traj_lens 0
  let x_of_input := selectColsZ input_data xy.1
  let y_of_input := selectColsZ input_data xy.2
  let C00 := matMul x_of_input (transposeM x_of_input)
  let C11 := matMul y_of_input (transposeM y_of_input)
  let C01 := matMul x_of_input (transposeM y_of_input)
  matMul (invFn (matAdd C00 C11)) (matAdd C01 (transposeM C01))

/-- The timescale collection loop of `covariance`: `for i in range(1, len(ev))`
appending while `ev[i] > 0` and breaking at the first failure.  The second
argument is the current index, the third the number of loop iterations left.
The comparison reads the real part: the loop is only reached with a real
eigenvalue array (on a complex dtype numpy raises on `>`). -/
def evScan (ev : List Cplx) : ℕ → ℕ → List Cplx
  | _, 0 => []
  | i, n + 1 => if 0 < (ev.getD i czero).1 then ev.getD i czero :: evScan ev (i + 1) n else []

/-- `AmusetTICA.covariance`: Koopman matrix, eigendecomposition, sort by
descending eigenvalue (numpy's complex order: real part, then imaginary
part), column reorder of the right-eigenvectors, and timescales
`-lag_time / log(ev)` over the collected leading positive eigenvalues. -/
def AmusetTICA.covariance (self : AmusetTICA) (invFn : InvFn) (eigFn : EigFn) (logFn : LogFn)
    (input_data : Mat) (traj_lens : List ℕ) (lag_time : ℤ) : AmusetTICA :=
  let K := koopmanMatrix invFn input_data traj_lens lag_time
  let ev := eigFn K
  let idx := cargsortDesc ev.1
  let evK := idx.map (fun i => ev.1.getD i czero)
  let vrK := ev.2.map (fun row => idx.map (fun j => row.getD j czero))
  let ev_out := evScan evK 1 (evK.length - 1)
  { self with K := K, ev_K := evK, vr_K := vrK, lagtime := lag_time,
              timescales := ev_out.map (fun z => -(lag_time : ℚ) / logFn z) }

/-- `AmusetTICA._transform`: optional projection through the Koopman
right-eigenvectors (or the inverse of the eigenvector matrix), row selection
by `cvs_list`, transposition to frame-major order and slicing back into
per-trajectory blocks.  Values are complex because the eigenvector projection
is; the `do_amuset_tica=False` branch carries real values cast to complex. -/
def AmusetTICA._transform (self : AmusetTICA) (cinvFn : CInvFn) (input_data : CMat)
    (traj_lens : List ℕ) (cvs_list : List ℕ) (use_right_vr : Bool) (do_amuset_tica : Bool) :
    List CMat :=
  let all_data :=
    if do_amuset_tica then
      if use_right_vr then
        ctransposeM (selectRows (cmatMul (ctransposeM self.vr_K) input_data) cvs_list)
      else
        ctransposeM (selectRows (cmatMul (cinvFn self.vr_K) input_data) cvs_list)
    else ctransposeM (selectRows input_data cvs_list)
  sliceByLens all_data traj_lens

/-- `AmusetTICA.transform`: convert the sequences, replay the outer-product
builder in apply mode, apply the stored final compression layer
(`diag(1/s[-1]) @ u[-1].T`, reorder by `indices[-1]`, truncate comparing the
column count `len(transform_v[0])` against `max_rank`), resolve an integer
selector `n` to `range(1, 1+n)`, and delegate to `_transform`. -/
def AmusetTICA.transform (self : AmusetTICA) (g : GaussFn) (svdFn : SvdFn) (cinvFn : CInvFn)
    (sequences : List Mat) (cvs_sel : ℕ ⊕ List ℕ) (use_right_vr : Bool)
    ( _do_amuset_tica : Bool) : List CMat :=
  let conv := _convert_sequences sequences
  let bo := self._build_outer_product g svdFn self.basis_list conv.1 false
  let tv0 := matMul (matMul (diagMat ((self.tt_s.getLastD []).map (fun x => 1 / x)))
      (transposeM (self.tt_u.getLastD []))) bo.1
  let tv1 := selectRows tv0 (self.tt_indices.getLastD [])
  let tv :=
    if 0 < self.max_rank ∧ self.max_rank < (((tv1.getD 0 []).length : ℤ)) then
      tv1.take self.max_rank.toNat
    else tv1
  let cvs_list :=
    match cvs_sel with
    | Sum.inl n => List.range' 1 n
    | Sum.inr l => l
  self._transform cinvFn (castC tv) conv.2 cvs_list use_right_vr _do_amuset_tica

/-- A `save()` snapshot dictionary.  Every key of the flat dictionary is a
field; `none` models an absent key.  The per-index families
`basis_list_i` / `tt_u_i` / `tt_s_i` / `tt_indices_i` together with their
count keys `n_basis_list` / `n_tt_layers` are modelled as the lists they
encode. -/
structure Snapshot where
  max_rank : Option ℤ := none
  basis_list : Option BasisList := none
  tt_u : Option (List Mat) := none
  tt_s : Option (List Vec) := none
  tt_indices : Option (List (List ℕ)) := none
  rank : Option ℕ := none
  K : Option Mat := none
  ev_K : Option (List Cplx) := none
  vr_K : Option CMat := none
  lagtime : Option ℤ := none
  timescales : Option (List ℚ) := none

/-- `AmusetTICA.load`: read every stored field from the dictionary — a
missing required key is a `KeyError`, modelled by `none` — except `lagtime`,
which is only read when present (`if 'lagtime' in dic.keys()`) and otherwise
leaves the attribute at its previous value (zero on a fresh model). -/
def AmusetTICA.load (self : AmusetTICA) (dic : Snapshot) : Option AmusetTICA := do
  let mr ← dic.max_rank
  let bl ← dic.basis_list
  let us ← dic.tt_u
  let ss ← dic.tt_s
  let tis ← dic.tt_indices
  let rk ← dic.rank
  let k ← dic.K
  let ev ← dic.ev_K
  let vr ← dic.vr_K
  let lt :=
    match dic.lagtime with
    | some t => t
    | none => self.lagtime
  let ts ← dic.timescales
  pure { self with max_rank := mr, basis_list := bl, tt_u := us, tt_s := ss, tt_indices := tis,
                   rank_used := rk, K := k, ev_K := ev, vr_K := vr, lagtime := lt,
                   timescales := ts }

/-- The spec-side product for `does_basis_overflow`: `(len(basis)+1)` over all
dimensions except the last. -/
def basisProdExceptLast (basis_list : BasisList) : ℤ :=
  (basis_list.dropLast.map (fun b => (b.length : ℤ) + 1)).prod

/-- Spec-side replay of the apply-mode outer-product builder: one stored
compression layer is consumed from the front of the three layer lists per
feature dimension, in order. -/
def applyReplay (g : GaussFn) (data_matrix : Mat) (data_length : ℕ) (max_rank : ℤ) :
    BasisList → ℕ → List Mat → List Vec → List (List ℕ) → Mat → Mat
  | [], _, _, _, _, outer => outer
  | b :: bs, il, us, ss, inds, outer =>
      let tv := selectRows
        (matMul (matMul (diagMat ((ss.headD []).map (fun x => 1 / x)))
          (transposeM (us.headD []))) outer) (inds.headD [])
      let tv2 := if 0 < max_rank ∧ max_rank < (tv.length : ℤ) then tv.take max_rank.toNat else tv
      let outer_b := gaussBasisRows g b (data_matrix.getD il []) data_length
      applyReplay g data_matrix data_length max_rank bs (il + 1) us.tail ss.tail inds.tail
        (outerKron tv2 outer_b)

/-- The outer-product expansion without any compression: what the loop of
`_build_outer_product` computes when `max_rank <= 0`, in either mode. -/
def pureOuterLoop (g : GaussFn) (data_matrix : Mat) (data_length : ℕ) :
    BasisList → ℕ → Mat → Mat
  | [], _, outer => outer
  | b :: bs, il, outer =>
      pureOuterLoop g data_matrix data_length bs (il + 1)
        (outerKron outer (gaussBasisRows g b (data_matrix.getD il []) data_length))

/-- The full uncompressed outer product of a basis list over a data matrix. -/
def pureOuter (g : GaussFn) (basis_list : BasisList) (data_matrix : Mat) : Mat :=
  pureOuterLoop g data_matrix (numCols data_matrix) basis_list 0
    [List.replicate (numCols data_matrix) 1]

/-- Start offset of trajectory `i` inside the concatenated frame axis. -/
def trajStart (traj_lens : List ℕ) (i : ℕ) : ℤ := ((traj_lens.take i).sum : ℤ)

/-- The source-index block of trajectory `i` in `covariance`. -/
def xBlock (lag_time : ℤ) (traj_lens : List ℕ) (i : ℕ) : List ℤ :=
  arange (trajStart traj_lens i) (trajStart traj_lens i + ((traj_lens.getD i 0 : ℕ) : ℤ) - lag_time)

/-- The target-index block of trajectory `i` in `covariance`. -/
def yBlock (lag_time : ℤ) (traj_lens : List ℕ) (i : ℕ) : List ℤ :=
  arange (trajStart traj_lens i + lag_time) (trajStart traj_lens i + ((traj_lens.getD i 0 : ℕ) : ℤ))

/-- Concrete Gaussian oracle used in witnesses. -/
def wGauss : GaussFn := fun _ _ x => x

/-- Concrete SVD oracle used in witnesses: `u` a 1 x 1 identity, one singular
value 1, and `v` the input itself — a valid exact SVD of any 1-row matrix. -/
def wSvd : SvdFn := fun m => ([[1]], [1], m)

/-- Concrete matrix-inverse oracle used in witnesses. -/
def wInv : InvFn := fun m => m

/-- Concrete complex-inverse oracle used in witnesses. -/
def wCInv : CInvFn := fun m => m

/-- Concrete eigendecomposition oracle used in witnesses. -/
def wEig : EigFn := fun _ => ([(3, 0), (2, 0), (0, 0)], [[(1, 0), (1, 0), (0, 0)]])

/-- Concrete logarithm oracle used in witnesses. -/
def wLog : LogFn := fun z => z.1

/-- Concrete snapshot used in the persistence witness: every field present
except `lagtime`. -/
def wSnap : Snapshot :=
  { max_rank := some 2, basis_list := some [[(1, 1)]], tt_u := some [[[1]]],
    tt_s := some [[1]], tt_indices := some [[0]], rank := some 1, K := some [[1]],
    ev_K := some [(1, 0)], vr_K := some [[(1, 0)]], lagtime := none, timescales := some [1] }

/-- The matrix on which `build` performs its final SVD: the fit-mode outer
product of the basis list over the converted sequences, starting from the
state as `build` has prepared it (basis stored, layer store cleared,
trajectory lengths recorded). -/
def AmusetTICA.fitOuter (self : AmusetTICA) (g : GaussFn) (f : SvdFn)
    (basis_list : BasisList) (sequences : List Mat) : Mat :=
  let st0 := { self with basis_list := basis_list, tt_u := [], tt_s := [], tt_indices := [] }
  let conv := _convert_sequences sequences
  let st1 := { st0 with traj_lens := conv.2 }
  (st1._build_outer_product g f basis_list conv.1 true).1

/-- A model state with max_rank 1 and two stored compression layers, used in
witnesses of apply-mode replay. -/
def wState : AmusetTICA :=
  { AmusetTICA.init 1 with tt_u := [[[1]], [[1]]], tt_s := [[1], [1]], tt_indices := [[0], [0]] }

theorem map_getD_range {α : Type} (l : List α) (d : α) :
    (List.range l.length).map (fun j => l.getD j d) = l := by
  induction l with
  | nil => rfl
  | cons a t ih =>
      rw [List.length_cons, List.range_succ_eq_map, List.map_cons, List.map_map]
      simp only [Function.comp_def, List.getD_cons_succ, List.getD_cons_zero]
      rw [ih]

theorem getD_eq_headD_drop {α : Type} (l : List α) (i : ℕ) (d : α) :
    l.getD i d = (l.drop i).headD d := by
  induction l generalizing i with
  | nil => cases i <;> rfl
  | cons a t ih =>
      cases i with
      | zero => rfl
      | succ n => simp only [List.getD_cons_succ, List.drop_succ_cons]; exact ih n

theorem arange_eq_nil {a b : ℤ} (h : b ≤ a) : arange a b = [] := by
  unfold arange
  have : (b - a).toNat = 0 := by omega
  rw [this]
  rfl

theorem foldl_mul_range_getD (f : List (ℚ × ℚ) → ℤ) (l : BasisList) :
    ∀ k, k ≤ l.length →
      (List.range k).foldl (fun acc i => acc * f (l.getD i [])) 1 = ((l.take k).map f).prod := by
  intro k
  induction k with
  | zero => intro _; rfl
  | succ n ih =>
      intro h
      have hn : n < l.length := h
      rw [List.range_succ, List.foldl_append, ih (Nat.le_of_lt hn)]
      rw [List.take_succ, List.map_append, List.prod_append]
      simp [List.getElem?_eq_getElem hn, List.getD_eq_getElem?_getD]

/-- C4: `does_basis_overflow` returns `true` iff `max_rank > 0` and the
product of `(len(basis_list[i]) + 1)` over all dimensions except the last is
strictly greater than `max_rank`; in particular it returns `false` whenever
`max_rank ≤ 0`, regardless of the basis list. -/
theorem c4_does_basis_overflow (st : AmusetTICA) (bl : BasisList) :
    ((st.does_basis_overflow bl) = true ↔
      0 < st.max_rank ∧ st.max_rank < basisProdExceptLast bl) ∧
    (st.max_rank ≤ 0 → (st.does_basis_overflow bl) = false) := by
  have hfold : (List.range (bl.length - 1)).foldl
      (fun acc i => acc * (((bl.getD i []).length : ℤ) + 1)) 1 = basisProdExceptLast bl := by
    rw [foldl_mul_range_getD (fun b => ((b.length : ℤ) + 1)) bl (bl.length - 1) (Nat.sub_le _ _)]
    rw [basisProdExceptLast, List.dropLast_eq_take]
  constructor
  · unfold AmusetTICA.does_basis_overflow
    by_cases h : 0 < st.max_rank
    · simp only [if_pos h, hfold, decide_eq_true_eq]
      exact ⟨fun hp => ⟨h, hp⟩, fun hp => hp.2⟩
    · simp [if_neg h, h]
  · intro h
    unfold AmusetTICA.does_basis_overflow
    rw [if_neg (by omega)]

theorem arange_shift (p a b : ℤ) :
    arange (p + a) (p + b) = (arange a b).map (fun z => p + z) := by
  unfold arange
  have h : p + b - (p + a) = b - a := by ring
  rw [h, List.map_map]
  apply List.map_congr_left
  intro k _
  simp only [Function.comp_apply]
  ring

theorem xBlock_cons (lag : ℤ) (n : ℕ) (rest : List ℕ) (i : ℕ) :
    xBlock lag (n :: rest) (i + 1) = (xBlock lag rest i).map (fun z => (n : ℤ) + z) := by
  unfold xBlock trajStart
  rw [List.take_succ_cons, List.sum_cons, List.getD_cons_succ, ← arange_shift]
  congr 1 <;> push_cast <;> ring

theorem yBlock_cons (lag : ℤ) (n : ℕ) (rest : List ℕ) (i : ℕ) :
    yBlock lag (n :: rest) (i + 1) = (yBlock lag rest i).map (fun z => (n : ℤ) + z) := by
  unfold yBlock trajStart
  rw [List.take_succ_cons, List.sum_cons, List.getD_cons_succ, ← arange_shift]
  congr 1 <;> push_cast <;> ring

theorem covIndicesLoop_blocks (lag : ℤ) : ∀ (lens : List ℕ) (pos : ℤ),
    covIndicesLoop lag lens pos =
      (((List.range lens.length).map (fun i => (xBlock lag lens i).map (fun z => pos + z))).flatten,
       ((List.range lens.length).map (fun i => (yBlock lag lens i).map (fun z => pos + z))).flatten) := by
  intro lens
  induction lens with
  | nil => intro pos; rfl
  | cons n rest ih =>
      intro pos
      show (arange pos (pos + (n : ℤ) - lag) ++ (covIndicesLoop lag rest (pos + (n : ℤ))).1,
            arange (pos + lag) (pos + (n : ℤ)) ++ (covIndicesLoop lag rest (pos + (n : ℤ))).2) = _
      rw [ih (pos + (n : ℤ))]
      rw [List.length_cons, List.range_succ_eq_map, List.map_cons, List.map_cons,
        List.flatten_cons, List.flatten_cons, List.map_map, List.map_map]
      have hx0 : (xBlock lag (n :: rest) 0).map (fun z => pos + z) =
          arange pos (pos + (n : ℤ) - lag) := by
        unfold xBlock trajStart
        rw [← arange_shift]
        congr 1 <;> (simp only [List.take_zero, List.sum_nil, Nat.cast_zero, List.getD_cons_zero]; ring)
      have hy0 : (yBlock lag (n :: rest) 0).map (fun z => pos + z) =
          arange (pos + lag) (pos + (n : ℤ)) := by
        unfold yBlock trajStart
        rw [← arange_shift]
        congr 1 <;> (simp only [List.take_zero, List.sum_nil, Nat.cast_zero, List.getD_cons_zero]; ring)
      have hxs : ((fun i => (xBlock lag (n :: rest) i).map (fun z => pos + z)) ∘ Nat.succ) =
          (fun i => (xBlock lag rest i).map (fun z => pos + (n : ℤ) + z)) := by
        funext i
        simp only [Function.comp_apply, xBlock_cons, List.map_map]
        apply List.map_congr_left
        intro z _
        simp only [Function.comp_apply]
        ring
      have hys : ((fun i => (yBlock lag (n :: rest) i).map (fun z => pos + z)) ∘ Nat.succ) =
          (fun i => (yBlock lag rest i).map (fun z => pos + (n : ℤ) + z)) := by
        funext i
        simp only [Function.comp_apply, yBlock_cons, List.map_map]
        apply List.map_congr_left
        intro z _
        simp only [Function.comp_apply]
        ring
      rw [hx0, hy0, hxs, hys]

/-- C8: in `covariance`, a trajectory whose length is at most `lag_time`
contributes an empty source block and an empty target block (`numpy.arange`
with a stop at or before its start is empty, no error is raised), and the
generated index lists are exactly the concatenation of the per-trajectory
blocks, so the blocks of all other trajectories are unaffected. -/
theorem c8_short_trajectory_empty (lag : ℤ) (lens : List ℕ) (i : ℕ)
    (hi : i < lens.length) (hshort : ((lens.getD i 0 : ℕ) : ℤ) ≤ lag) :
    xBlock lag lens i = [] ∧ yBlock lag lens i = [] ∧
    covIndicesLoop lag lens 0 =
      (((List.range lens.length).map (xBlock lag lens)).flatten,
       ((List.range lens.length).map (yBlock lag lens)).flatten) := by
  refine ⟨arange_eq_nil (by omega), arange_eq_nil (by omega), ?_⟩
  rw [covIndicesLoop_blocks lag lens 0]
  simp only [zero_add, List.map_id']

/-- C8 witness: trajectory 0 of lengths `[3, 10]` at lag time 5 contributes
empty index ranges. -/
theorem c8_short_trajectory_empty_witness :
    xBlock 5 [3, 10] 0 = [] ∧ yBlock 5 [3, 10] 0 = [] :=
  ⟨(c8_short_trajectory_empty 5 [3, 10] 0 (by decide) (by decide)).1,
   (c8_short_trajectory_empty 5 [3, 10] 0 (by decide) (by decide)).2.1⟩

/-- C9: `load` on a snapshot that has every stored key except `lagtime`
succeeds (no missing-key error), restores every present field, and leaves the
lag time at its prior attribute value — zero for a freshly constructed
model. -/
theorem c9_load_missing_lagtime (st : AmusetTICA) (dic : Snapshot)
    (hlag : dic.lagtime = none)
    (mr : ℤ) (hmr : dic.max_rank = some mr)
    (bl : BasisList) (hbl : dic.basis_list = some bl)
    (us : List Mat) (hus : dic.tt_u = some us)
    (ss : List Vec) (hss : dic.tt_s = some ss)
    (tis : List (List ℕ)) (htis : dic.tt_indices = some tis)
    (rk : ℕ) (hrk : dic.rank = some rk)
    (k : Mat) (hk : dic.K = some k)
    (ev : List Cplx) (hev : dic.ev_K = some ev)
    (vr : CMat) (hvr : dic.vr_K = some vr)
    (ts : List ℚ) (hts : dic.timescales = some ts) :
    st.load dic = some { st with
      max_rank := mr, basis_list := bl, tt_u := us, tt_s := ss,
      tt_indices := tis, rank_used := rk, K := k, ev_K := ev, vr_K := vr,
      lagtime := st.lagtime, timescales := ts } := by
  rw [AmusetTICA.load, hlag, hmr, hbl, hus, hss, htis, hrk, hk, hev, hvr, hts]
  rfl

/-- C9 witness: loading `wSnap` (which lacks the `lagtime` key) into a fresh
model succeeds with lag time 0 and the other fields taken from the
snapshot. -/
theorem c9_load_missing_lagtime_witness :
    (AmusetTICA.init 0).load wSnap =
      some { AmusetTICA.init 0 with
        max_rank := 2, basis_list := [[(1, 1)]], tt_u := [[[1]]],
        tt_s := [[1]], tt_indices := [[0]], rank_used := 1, K := [[1]], ev_K := [(1, 0)],
        vr_K := [[(1, 0)]], lagtime := 0, timescales := [1] } :=
  c9_load_missing_lagtime (AmusetTICA.init 0) wSnap rfl 2 rfl [[(1, 1)]] rfl [[[1]]] rfl
    [[1]] rfl [[0]] rfl 1 rfl [[1]] rfl [(1, 0)] rfl [[(1, 0)]] rfl [1] rfl

theorem evScan_eq_takeWhile (ev : List Cplx) :
    ∀ (n i : ℕ), i + n = ev.length →
      evScan ev i n = (ev.drop i).takeWhile (fun z => decide (0 < z.1)) := by
  intro n
  induction n with
  | zero =>
      intro i hi
      rw [evScan, List.drop_of_length_le (by omega)]
      rfl
  | succ m ih =>
      intro i hi
      have hlt : i < ev.length := by omega
      have hg : ev.getD i czero = ev[i] := List.getD_eq_getElem ev czero hlt
      rw [evScan, hg, List.drop_eq_getElem_cons hlt, List.takeWhile_cons]
      by_cases hp : 0 < (ev[i] : Cplx).1
      · rw [if_pos hp, if_pos (by simpa using hp), ih (i + 1) (by omega)]
      · rw [if_neg hp, if_neg (by simpa using hp)]

theorem evScan_one_eq_takeWhile (ev : List Cplx) :
    evScan ev 1 (ev.length - 1) = (ev.drop 1).takeWhile (fun z => decide (0 < z.1)) := by
  cases ev with
  | nil => rfl
  | cons a t => exact evScan_eq_takeWhile (a :: t) t.length 1 (by simp [Nat.add_comm])

/-- C6: after `covariance`, the stored timescales arise from scanning the
sorted eigenvalues from index 1, collecting the maximal prefix of strictly
positive eigenvalues (stopping at the first non-positive one) and applying
`-lag_time / log` elementwise, so there are as many timescales as that prefix
is long.  The hypothesis restricts to all-real eigenvalue arrays, the only
case in which numpy's `ev > 0` comparison is defined. -/
theorem c6_timescales_scan (invFn : InvFn) (eigFn : EigFn) (logFn : LogFn) (input : Mat)
    (lens : List ℕ) (lag : ℤ) (st : AmusetTICA)
    (hreal : ∀ z ∈ (st.covariance invFn eigFn logFn input lens lag).ev_K, (z : Cplx).2 = 0) :
    (st.covariance invFn eigFn logFn input lens lag).timescales =
      (((st.covariance invFn eigFn logFn input lens lag).ev_K.drop 1).takeWhile
        (fun z => decide (0 < z.1))).map (fun z => -(lag : ℚ) / logFn z) ∧
    (st.covariance invFn eigFn logFn input lens lag).timescales.length =
      (((st.covariance invFn eigFn logFn input lens lag).ev_K.drop 1).takeWhile
        (fun z => decide (0 < z.1))).length := by
  have h1 : (st.covariance invFn eigFn logFn input lens lag).timescales =
      (((st.covariance invFn eigFn logFn input lens lag).ev_K.drop 1).takeWhile
        (fun z => decide (0 < z.1))).map (fun z => -(lag : ℚ) / logFn z) := by
    simp only [AmusetTICA.covariance]
    rw [evScan_one_eq_takeWhile]
  exact ⟨h1, by rw [h1, List.length_map]⟩

theorem cLe_total_pair (a b : Cplx) : cLe a b ∨ cLe b a := by
  unfold cLe
  rcases lt_trichotomy a.1 b.1 with h | h | h
  · exact Or.inl (Or.inl h)
  · rcases le_total a.2 b.2 with h2 | h2
    · exact Or.inl (Or.inr ⟨h, h2⟩)
    · exact Or.inr (Or.inr ⟨h.symm, h2⟩)
  · exact Or.inr (Or.inl h)

theorem cLe_trans_pair (a b c : Cplx) : cLe a b → cLe b c → cLe a c := by
  unfold cLe
  rintro (h1 | ⟨h1e, h1i⟩) (h2 | ⟨h2e, h2i⟩)
  · exact Or.inl (h1.trans h2)
  · exact Or.inl (h2e ▸ h1)
  · exact Or.inl (h1e ▸ h2)
  · exact Or.inr ⟨h1e.trans h2e, h1i.trans h2i⟩

theorem cLe_re_le {a b : Cplx} (h : cLe a b) : a.1 ≤ b.1 := by
  rcases h with h | h
  · exact le_of_lt h
  · exact le_of_eq h.1

theorem pairwise_cargsortDesc (s : List Cplx) :
    List.Pairwise (fun a b => (b : Cplx).1 ≤ (a : Cplx).1)
      ((cargsortDesc s).map (fun i => s.getD i czero)) := by
  unfold cargsortDesc
  haveI ht : IsTotal ℕ (fun i j => cLe (s.getD i czero) (s.getD j czero)) :=
    ⟨fun a b => cLe_total_pair _ _⟩
  haveI htr : IsTrans ℕ (fun i j => cLe (s.getD i czero) (s.getD j czero)) :=
    ⟨fun a b c h1 h2 => cLe_trans_pair _ _ _ h1 h2⟩
  have hs : List.Pairwise (fun i j => cLe (s.getD i czero) (s.getD j czero))
      (List.insertionSort (fun i j => cLe (s.getD i czero) (s.getD j czero))
        (List.range s.length)) :=
    List.sorted_insertionSort _ _
  have hrev : List.Pairwise (fun i j => cLe (s.getD j czero) (s.getD i czero))
      ((List.insertionSort (fun i j => cLe (s.getD i czero) (s.getD j czero))
        (List.range s.length)).reverse) := by
    rw [List.pairwise_reverse]
    exact hs
  exact hrev.map _ (fun i j h => cLe_re_le h)

/-- C7: after `covariance` the stored eigenvalue list is sorted with
non-increasing real parts, and both the eigenvalues and the right-eigenvector
columns are reordered by one and the same permutation of the
eigendecomposition output. -/
theorem c7_eigenvalues_sorted (invFn : InvFn) (eigFn : EigFn) (logFn : LogFn) (input : Mat)
    (lens : List ℕ) (lag : ℤ) (st : AmusetTICA) :
    List.Pairwise (fun a b => (b : Cplx).1 ≤ (a : Cplx).1)
      ((st.covariance invFn eigFn logFn input lens lag).ev_K) ∧
    ∃ idx : List ℕ,
      idx.Perm (List.range (eigFn (koopmanMatrix invFn input lens lag)).1.length) ∧
      (st.covariance invFn eigFn logFn input lens lag).ev_K =
        idx.map (fun i => (eigFn (koopmanMatrix invFn input lens lag)).1.getD i czero) ∧
      (st.covariance invFn eigFn logFn input lens lag).vr_K =
        (eigFn (koopmanMatrix invFn input lens lag)).2.map
          (fun row => idx.map (fun j => row.getD j czero)) := by
  constructor
  · simp only [AmusetTICA.covariance]
    exact pairwise_cargsortDesc _
  · refine ⟨cargsortDesc (eigFn (koopmanMatrix invFn input lens lag)).1, ?_, ?_, ?_⟩
    · exact (List.reverse_perm _).trans (List.perm_insertionSort _ _)
    · simp only [AmusetTICA.covariance]
    · simp only [AmusetTICA.covariance]

theorem buildOuterStep_build_pos (g : GaussFn) (f : SvdFn) (data : Mat) (n : ℕ)
    (b : List (ℚ × ℚ)) (il : ℕ) (outer : Mat) (st : AmusetTICA) (i : ℕ)
    (hmr : 0 < st.max_rank) :
    buildOuterStep g f true data n b il outer st i =
      (outerKron
        (if st.max_rank < ((selectRows (f outer).2.2 (argsortDesc (f outer).2.1)).length : ℤ) then
          (selectRows (f outer).2.2 (argsortDesc (f outer).2.1)).take st.max_rank.toNat
        else selectRows (f outer).2.2 (argsortDesc (f outer).2.1))
        (gaussBasisRows g b (data.getD il []) n),
       { st with tt_u := st.tt_u ++ [(f outer).1], tt_s := st.tt_s ++ [(f outer).2.1],
                 tt_indices := st.tt_indices ++ [argsortDesc (f outer).2.1],
                 tt_intra_svd_layers := i + 1 },
       i + 1) := by
  rw [buildOuterStep]
  simp only [if_pos hmr, eq_self_iff_true, if_true, hmr, true_and]

theorem buildOuterStep_apply_pos (g : GaussFn) (f : SvdFn) (data : Mat) (n : ℕ)
    (b : List (ℚ × ℚ)) (il : ℕ) (outer : Mat) (st : AmusetTICA) (i : ℕ)
    (hmr : 0 < st.max_rank) :
    buildOuterStep g f false data n b il outer st i =
      (outerKron
        (if st.max_rank < ((selectRows
            (matMul (matMul (diagMat ((st.tt_s.getD i []).map (fun x => 1 / x)))
              (transposeM (st.tt_u.getD i []))) outer) (st.tt_indices.getD i [])).length : ℤ) then
          (selectRows
            (matMul (matMul (diagMat ((st.tt_s.getD i []).map (fun x => 1 / x)))
              (transposeM (st.tt_u.getD i []))) outer)
            (st.tt_indices.getD i [])).take st.max_rank.toNat
        else selectRows
          (matMul (matMul (diagMat ((st.tt_s.getD i []).map (fun x => 1 / x)))
            (transposeM (st.tt_u.getD i []))) outer) (st.tt_indices.getD i []))
        (gaussBasisRows g b (data.getD il []) n),
       st, i + 1) := by
  rw [buildOuterStep]
  simp only [if_pos hmr, Bool.false_eq_true, if_false]
  simp only [hmr, true_and]

theorem buildOuterStep_nonpos (g : GaussFn) (f : SvdFn) (m : Bool) (data : Mat) (n : ℕ)
    (b : List (ℚ × ℚ)) (il : ℕ) (outer : Mat) (st : AmusetTICA) (i : ℕ)
    (hmr : ¬ 0 < st.max_rank) :
    buildOuterStep g f m data n b il outer st i =
      (outerKron outer (gaussBasisRows g b (data.getD il []) n),
       if m then { st with tt_intra_svd_layers := i } else st, i) := by
  rw [buildOuterStep]
  simp only [if_neg hmr]
  have hc : ¬ (0 < st.max_rank ∧ st.max_rank < (outer.length : ℤ)) := fun hh => hmr hh.1
  simp only [if_neg hc]

theorem buildOuterLoop_cons (g : GaussFn) (f : SvdFn) (m : Bool) (data : Mat) (n : ℕ)
    (b : List (ℚ × ℚ)) (bs : BasisList) (il : ℕ) (outer : Mat) (st : AmusetTICA) (i : ℕ) :
    buildOuterLoop g f m data n (b :: bs) il outer st i =
      buildOuterLoop g f m data n bs (il + 1)
        (buildOuterStep g f m data n b il outer st i).1
        (buildOuterStep g f m data n b il outer st i).2.1
        (buildOuterStep g f m data n b il outer st i).2.2 := rfl

theorem stepBuild_tt_u (g : GaussFn) (f : SvdFn) (data : Mat) (n : ℕ) (b : List (ℚ × ℚ))
    (il : ℕ) (outer : Mat) (st : AmusetTICA) (i : ℕ) (hmr : 0 < st.max_rank) :
    (buildOuterStep g f true data n b il outer st i).2.1.tt_u = st.tt_u ++ [(f outer).1] := by
  rw [buildOuterStep_build_pos g f data n b il outer st i hmr]

theorem stepBuild_tt_s (g : GaussFn) (f : SvdFn) (data : Mat) (n : ℕ) (b : List (ℚ × ℚ))
    (il : ℕ) (outer : Mat) (st : AmusetTICA) (i : ℕ) (hmr : 0 < st.max_rank) :
    (buildOuterStep g f true data n b il outer st i).2.1.tt_s = st.tt_s ++ [(f outer).2.1] := by
  rw [buildOuterStep_build_pos g f data n b il outer st i hmr]

theorem stepBuild_tt_indices (g : GaussFn) (f : SvdFn) (data : Mat) (n : ℕ)
    (b : List (ℚ × ℚ)) (il : ℕ) (outer : Mat) (st : AmusetTICA) (i : ℕ)
    (hmr : 0 < st.max_rank) :
    (buildOuterStep g f true data n b il outer st i).2.1.tt_indices =
      st.tt_indices ++ [argsortDesc (f outer).2.1] := by
  rw [buildOuterStep_build_pos g f data n b il outer st i hmr]

theorem stepBuild_count (g : GaussFn) (f : SvdFn) (data : Mat) (n : ℕ) (b : List (ℚ × ℚ))
    (il : ℕ) (outer : Mat) (st : AmusetTICA) (i : ℕ) (hmr : 0 < st.max_rank) :
    (buildOuterStep g f true data n b il outer st i).2.2 = i + 1 := by
  rw [buildOuterStep_build_pos g f data n b il outer st i hmr]

theorem stepApply_state (g : GaussFn) (f : SvdFn) (data : Mat) (n : ℕ) (b : List (ℚ × ℚ))
    (il : ℕ) (outer : Mat) (st : AmusetTICA) (i : ℕ) (hmr : 0 < st.max_rank) :
    (buildOuterStep g f false data n b il outer st i).2.1 = st := by
  rw [buildOuterStep_apply_pos g f data n b il outer st i hmr]

theorem stepApply_count (g : GaussFn) (f : SvdFn) (data : Mat) (n : ℕ) (b : List (ℚ × ℚ))
    (il : ℕ) (outer : Mat) (st : AmusetTICA) (i : ℕ) (hmr : 0 < st.max_rank) :
    (buildOuterStep g f false data n b il outer st i).2.2 = i + 1 := by
  rw [buildOuterStep_apply_pos g f data n b il outer st i hmr]

theorem stepAny_preserves (g : GaussFn) (f : SvdFn) (m : Bool) (data : Mat) (n : ℕ)
    (b : List (ℚ × ℚ)) (il : ℕ) (outer : Mat) (st : AmusetTICA) (i : ℕ) :
    (buildOuterStep g f m data n b il outer st i).2.1.max_rank = st.max_rank ∧
    (buildOuterStep g f m data n b il outer st i).2.1.basis_list = st.basis_list ∧
    (buildOuterStep g f m data n b il outer st i).2.1.traj_lens = st.traj_lens ∧
    (buildOuterStep g f m data n b il outer st i).2.1.rank_used = st.rank_used := by
  by_cases hmr : 0 < st.max_rank
  · cases m
    · rw [buildOuterStep_apply_pos g f data n b il outer st i hmr]
      exact ⟨rfl, rfl, rfl, rfl⟩
    · rw [buildOuterStep_build_pos g f data n b il outer st i hmr]
      exact ⟨rfl, rfl, rfl, rfl⟩
  · rw [buildOuterStep_nonpos g f m data n b il outer st i hmr]
    cases m
    · exact ⟨rfl, rfl, rfl, rfl⟩
    · exact ⟨rfl, rfl, rfl, rfl⟩

theorem stepNp_fields (g : GaussFn) (f : SvdFn) (m : Bool) (data : Mat) (n : ℕ)
    (b : List (ℚ × ℚ)) (il : ℕ) (outer : Mat) (st : AmusetTICA) (i : ℕ)
    (hmr : ¬ 0 < st.max_rank) :
    (buildOuterStep g f m data n b il outer st i).1 =
      outerKron outer (gaussBasisRows g b (data.getD il []) n) ∧
    (buildOuterStep g f m data n b il outer st i).2.1.tt_u = st.tt_u ∧
    (buildOuterStep g f m data n b il outer st i).2.1.tt_s = st.tt_s ∧
    (buildOuterStep g f m data n b il outer st i).2.1.tt_indices = st.tt_indices ∧
    (buildOuterStep g f m data n b il outer st i).2.1.max_rank = st.max_rank ∧
    (buildOuterStep g f m data n b il outer st i).2.2 = i := by
  rw [buildOuterStep_nonpos g f m data n b il outer st i hmr]
  cases m
  · exact ⟨rfl, rfl, rfl, rfl, rfl, rfl⟩
  · exact ⟨rfl, rfl, rfl, rfl, rfl, rfl⟩

theorem buildOuterLoop_preserves (g : GaussFn) (f : SvdFn) (m : Bool) (data : Mat) (n : ℕ) :
    ∀ (bs : BasisList) (il : ℕ) (outer : Mat) (st : AmusetTICA) (i : ℕ),
      (buildOuterLoop g f m data n bs il outer st i).2.1.max_rank = st.max_rank ∧
      (buildOuterLoop g f m data n bs il outer st i).2.1.basis_list = st.basis_list ∧
      (buildOuterLoop g f m data n bs il outer st i).2.1.traj_lens = st.traj_lens ∧
      (buildOuterLoop g f m data n bs il outer st i).2.1.rank_used = st.rank_used := by
  intro bs
  induction bs with
  | nil => intro il outer st i; exact ⟨rfl, rfl, rfl, rfl⟩
  | cons b bs ih =>
      intro il outer st i
      rw [buildOuterLoop_cons]
      obtain ⟨p1, p2, p3, p4⟩ := ih (il + 1) (buildOuterStep g f m data n b il outer st i).1
        (buildOuterStep g f m data n b il outer st i).2.1
        (buildOuterStep g f m data n b il outer st i).2.2
      obtain ⟨q1, q2, q3, q4⟩ := stepAny_preserves g f m data n b il outer st i
      exact ⟨p1.trans q1, p2.trans q2, p3.trans q3, p4.trans q4⟩

theorem buildOuterLoop_apply_state (g : GaussFn) (f : SvdFn) (data : Mat) (n : ℕ) :
    ∀ (bs : BasisList) (il : ℕ) (outer : Mat) (st : AmusetTICA) (i : ℕ),
      (buildOuterLoop g f false data n bs il outer st i).2.1 = st := by
  intro bs
  induction bs with
  | nil => intro il outer st i; rfl
  | cons b bs ih =>
      intro il outer st i
      rw [buildOuterLoop_cons]
      by_cases hmr : 0 < st.max_rank
      · rw [stepApply_state g f data n b il outer st i hmr]
        exact ih _ _ _ _
      · rw [buildOuterStep_nonpos g f false data n b il outer st i hmr]
        exact ih _ _ _ _

theorem buildOuterLoop_apply_count (g : GaussFn) (f : SvdFn) (data : Mat) (n : ℕ) :
    ∀ (bs : BasisList) (il : ℕ) (outer : Mat) (st : AmusetTICA) (i : ℕ), 0 < st.max_rank →
      (buildOuterLoop g f false data n bs il outer st i).2.2 = i + bs.length := by
  intro bs
  induction bs with
  | nil => intro il outer st i hmr; rfl
  | cons b bs ih =>
      intro il outer st i hmr
      rw [buildOuterLoop_cons, stepApply_state g f data n b il outer st i hmr,
        stepApply_count g f data n b il outer st i hmr]
      rw [ih _ _ _ _ hmr]
      simp only [List.length_cons]
      omega

theorem buildOuterLoop_apply_replay (g : GaussFn) (f : SvdFn) (data : Mat) (n : ℕ) :
    ∀ (bs : BasisList) (il : ℕ) (outer : Mat) (st : AmusetTICA) (i : ℕ), 0 < st.max_rank →
      (buildOuterLoop g f false data n bs il outer st i).1 =
        applyReplay g data n st.max_rank bs il (st.tt_u.drop i) (st.tt_s.drop i)
          (st.tt_indices.drop i) outer := by
  intro bs
  induction bs with
  | nil => intro il outer st i hmr; rfl
  | cons b bs ih =>
      intro il outer st i hmr
      rw [buildOuterLoop_cons, stepApply_state g f data n b il outer st i hmr,
        stepApply_count g f data n b il outer st i hmr]
      rw [ih _ _ _ _ hmr]
      rw [applyReplay]
      rw [List.tail_drop, List.tail_drop, List.tail_drop]
      rw [← getD_eq_headD_drop, ← getD_eq_headD_drop, ← getD_eq_headD_drop]
      rw [buildOuterStep_apply_pos g f data n b il outer st i hmr]
      simp only [hmr, true_and]

theorem buildOuterLoop_build_count (g : GaussFn) (f : SvdFn) (data : Mat) (n : ℕ) :
    ∀ (bs : BasisList) (il : ℕ) (outer : Mat) (st : AmusetTICA) (i : ℕ), 0 < st.max_rank →
      (buildOuterLoop g f true data n bs il outer st i).2.2 = i + bs.length := by
  intro bs
  induction bs with
  | nil => intro il outer st i hmr; rfl
  | cons b bs ih =>
      intro il outer st i hmr
      rw [buildOuterLoop_cons]
      have hmr2 : 0 < (buildOuterStep g f true data n b il outer st i).2.1.max_rank := by
        rw [(stepAny_preserves g f true data n b il outer st i).1]
        exact hmr
      rw [ih _ _ _ _ hmr2, stepBuild_count g f data n b il outer st i hmr]
      simp only [List.length_cons]
      omega

theorem buildOuterLoop_build_append (g : GaussFn) (f : SvdFn) (data : Mat) (n : ℕ) :
    ∀ (bs : BasisList) (il : ℕ) (outer : Mat) (st : AmusetTICA) (i : ℕ), 0 < st.max_rank →
      ∃ nu ns ni,
        (buildOuterLoop g f true data n bs il outer st i).2.1.tt_u = st.tt_u ++ nu ∧
        (buildOuterLoop g f true data n bs il outer st i).2.1.tt_s = st.tt_s ++ ns ∧
        (buildOuterLoop g f true data n bs il outer st i).2.1.tt_indices = st.tt_indices ++ ni ∧
        nu.length = bs.length ∧ ns.length = bs.length ∧ ni.length = bs.length := by
  intro bs
  induction bs with
  | nil =>
      intro il outer st i hmr
      exact ⟨[], [], [], by simp [buildOuterLoop], by simp [buildOuterLoop],
        by simp [buildOuterLoop], rfl, rfl, rfl⟩
  | cons b bs ih =>
      intro il outer st i hmr
      rw [buildOuterLoop_cons]
      have hmr2 : 0 < (buildOuterStep g f true data n b il outer st i).2.1.max_rank := by
        rw [(stepAny_preserves g f true data n b il outer st i).1]
        exact hmr
      obtain ⟨nu, ns, ni, h1, h2, h3, l1, l2, l3⟩ :=
        ih (il + 1) (buildOuterStep g f true data n b il outer st i).1
          (buildOuterStep g f true data n b il outer st i).2.1
          (buildOuterStep g f true data n b il outer st i).2.2 hmr2
      refine ⟨(f outer).1 :: nu, (f outer).2.1 :: ns, argsortDesc (f outer).2.1 :: ni,
        ?_, ?_, ?_, ?_, ?_, ?_⟩
      · rw [h1, stepBuild_tt_u g f data n b il outer st i hmr, List.append_assoc,
          List.singleton_append]
      · rw [h2, stepBuild_tt_s g f data n b il outer st i hmr, List.append_assoc,
          List.singleton_append]
      · rw [h3, stepBuild_tt_indices g f data n b il outer st i hmr, List.append_assoc,
          List.singleton_append]
      · simp [l1]
      · simp [l2]
      · simp [l3]

theorem buildOuterLoop_nonpos_all (g : GaussFn) (f : SvdFn) (m : Bool) (data : Mat) (n : ℕ) :
    ∀ (bs : BasisList) (il : ℕ) (outer : Mat) (st : AmusetTICA) (i : ℕ), st.max_rank ≤ 0 →
      (buildOuterLoop g f m data n bs il outer st i).1 = pureOuterLoop g data n bs il outer ∧
      (buildOuterLoop g f m data n bs il outer st i).2.1.tt_u = st.tt_u ∧
      (buildOuterLoop g f m data n bs il outer st i).2.1.tt_s = st.tt_s ∧
      (buildOuterLoop g f m data n bs il outer st i).2.1.tt_indices = st.tt_indices ∧
      (buildOuterLoop g f m data n bs il outer st i).2.2 = i := by
  intro bs
  induction bs with
  | nil => intro il outer st i hle; exact ⟨rfl, rfl, rfl, rfl, rfl⟩
  | cons b bs ih =>
      intro il outer st i hle
      have hmr : ¬ 0 < st.max_rank := by omega
      rw [buildOuterLoop_cons, pureOuterLoop]
      obtain ⟨e1, e2, e3, e4, e5, e6⟩ := stepNp_fields g f m data n b il outer st i hmr
      have hle2 : (buildOuterStep g f m data n b il outer st i).2.1.max_rank ≤ 0 := by
        rw [e5]
        exact hle
      obtain ⟨w1, w2, w3, w4, w5⟩ :=
        ih (il + 1) (buildOuterStep g f m data n b il outer st i).1
          (buildOuterStep g f m data n b il outer st i).2.1
          (buildOuterStep g f m data n b il outer st i).2.2 hle2
      refine ⟨?_, ?_, ?_, ?_, ?_⟩
      · rw [w1, e1]
      · rw [w2, e2]
      · rw [w3, e3]
      · rw [w4, e4]
      · rw [w5, e6]

/-- C1 counterexample: the original claim says a two-dimensional basis list
yields one intra-loop compression layer when fitting with max_rank > 0; the
code records a layer at the start of every dimension iteration — including a
trivial one before the first — so it stores two. -/
theorem c1_intra_layers_counterexample :
    ¬ (((AmusetTICA.init 1)._build_outer_product wGauss wSvd [[], []] [[1], [1]]
        true).2.1.tt_u.length = ([[], []] : BasisList).length - 1) := by decide

/-- C1 amended: when max_rank > 0, fit mode appends exactly `len(basis_list)`
intra-loop compression layers — one per feature dimension, recorded before
that dimension's expansion, in loop order — and the loop counter
`i_intra_svd_layer` ends at `len(basis_list)`; apply mode leaves the stored
layers untouched, ends its counter at `len(basis_list)`, and its outer set
equals the sequential replay that consumes the first `len(basis_list)`
stored layers from the front, in the order they were recorded. -/
theorem c1_intra_layers_amended (g : GaussFn) (f : SvdFn) (basis : BasisList) (data : Mat)
    (st : AmusetTICA) (hmr : 0 < st.max_rank) :
    (∃ nu ns ni,
      (st._build_outer_product g f basis data true).2.1.tt_u = st.tt_u ++ nu ∧
      (st._build_outer_product g f basis data true).2.1.tt_s = st.tt_s ++ ns ∧
      (st._build_outer_product g f basis data true).2.1.tt_indices = st.tt_indices ++ ni ∧
      nu.length = basis.length ∧ ns.length = basis.length ∧ ni.length = basis.length) ∧
    (st._build_outer_product g f basis data true).2.2 = basis.length ∧
    (st._build_outer_product g f basis data false).2.1 = st ∧
    (st._build_outer_product g f basis data false).2.2 = basis.length ∧
    (st._build_outer_product g f basis data false).1 =
      applyReplay g data (numCols data) st.max_rank basis 0 st.tt_u st.tt_s st.tt_indices
        [List.replicate (numCols data) 1] := by
  refine ⟨?_, ?_, ?_, ?_, ?_⟩
  · exact buildOuterLoop_build_append g f data (numCols data) basis 0 _ st 0 hmr
  · have h := buildOuterLoop_build_count g f data (numCols data) basis 0
      [List.replicate (numCols data) 1] st 0 hmr
    simpa using h
  · exact buildOuterLoop_apply_state g f data (numCols data) basis 0 _ st 0
  · have h := buildOuterLoop_apply_count g f data (numCols data) basis 0
      [List.replicate (numCols data) 1] st 0 hmr
    simpa using h
  · have h := buildOuterLoop_apply_replay g f data (numCols data) basis 0
      [List.replicate (numCols data) 1] st 0 hmr
    simpa [List.drop_zero] using h

/-- C1 witness: a concrete apply-mode run over a two-dimensional basis list
consumes exactly two stored layers. -/
theorem c1_intra_layers_amended_witness :
    ((wState._build_outer_product wGauss wSvd [[], []] [[1], [1]] false).2.2 =
      ([[], []] : BasisList).length) :=
  (c1_intra_layers_amended wGauss wSvd [[], []] [[1], [1]] wState (by decide)).2.2.2.1

/-- C10: `build` clears the three stored layer lists before fitting, so after
any `build` the number of stored compression layers (including the final
layer appended after the loop) is `len(basis_list) + 1` when max_rank > 0 and
1 otherwise — independent of whatever layers the model held before, so
re-fitting leaves exactly the layer count of a fresh fit. -/
theorem c10_build_resets_layers (g : GaussFn) (f : SvdFn) (basis : BasisList)
    (seqs : List Mat) (st : AmusetTICA) :
    ((st.build g f basis seqs).2.tt_u.length =
      if 0 < st.max_rank then basis.length + 1 else 1) ∧
    ((st.build g f basis seqs).2.tt_s.length =
      if 0 < st.max_rank then basis.length + 1 else 1) ∧
    ((st.build g f basis seqs).2.tt_indices.length =
      if 0 < st.max_rank then basis.length + 1 else 1) := by
  simp only [AmusetTICA.build, AmusetTICA._build_outer_product]
  by_cases hmr : 0 < st.max_rank
  · obtain ⟨nu, ns, ni, h1, h2, h3, l1, l2, l3⟩ :=
      buildOuterLoop_build_append g f (_convert_sequences seqs).1
        (numCols (_convert_sequences seqs).1) basis 0
        [List.replicate (numCols (_convert_sequences seqs).1) 1]
        { { st with basis_list := basis, tt_u := [], tt_s := [], tt_indices := [] } with
          traj_lens := (_convert_sequences seqs).2 } 0 hmr
    rw [if_pos hmr]
    refine ⟨?_, ?_, ?_⟩
    · rw [List.length_append, h1]
      simp [l1]
    · rw [List.length_append, h2]
      simp [l2]
    · rw [List.length_append, h3]
      simp [l3]
  · have hle : st.max_rank ≤ 0 := by omega
    obtain ⟨w1, w2, w3, w4, w5⟩ :=
      buildOuterLoop_nonpos_all g f true (_convert_sequences seqs).1
        (numCols (_convert_sequences seqs).1) basis 0
        [List.replicate (numCols (_convert_sequences seqs).1) 1]
        { { st with basis_list := basis, tt_u := [], tt_s := [], tt_indices := [] } with
          traj_lens := (_convert_sequences seqs).2 } 0 hle
    rw [if_neg hmr]
    refine ⟨?_, ?_, ?_⟩
    · rw [List.length_append, w2]
      rfl
    · rw [List.length_append, w3]
      rfl
    · rw [List.length_append, w4]
      rfl

theorem argsortDesc_length (s : Vec) : (argsortDesc s).length = s.length := by
  unfold argsortDesc
  rw [List.length_reverse, (List.perm_insertionSort _ _).length_eq, List.length_range]

theorem argsortDesc_mem {s : Vec} {x : ℕ} (hx : x ∈ argsortDesc s) : x < s.length := by
  unfold argsortDesc at hx
  rw [List.mem_reverse] at hx
  exact List.mem_range.mp ((List.perm_insertionSort _ (List.range s.length)).mem_iff.mp hx)

theorem selectRows_length {α : Type} (m : List (List α)) (idx : List ℕ) :
    (selectRows m idx).length = idx.length := List.length_map idx _

/-- C5: for any SVD oracle whose output at the final fit-mode outer product
has the scipy shapes (`len(s) = len(v)`, `len(v) = min(rows, cols)`, `v`'s
rows as long as the input has columns), the `rank_used` recorded by `build`
is at most `max_rank` whenever `max_rank > 0`, and equals the row count of
the final SVD's right-singular-vector matrix whenever `max_rank ≤ 0`. -/
theorem c5_rank_used_bound (g : GaussFn) (f : SvdFn) (basis : BasisList) (seqs : List Mat)
    (st : AmusetTICA) (u : Mat) (s : Vec) (v : Mat)
    (hsvd : f (st.fitOuter g f basis seqs) = (u, s, v))
    (hlen : s.length = v.length)
    (hmin : v.length = min (st.fitOuter g f basis seqs).length
      (numCols (st.fitOuter g f basis seqs)))
    (hrect : ∀ r ∈ v, r.length = numCols (st.fitOuter g f basis seqs)) :
    (0 < st.max_rank → ((st.build g f basis seqs).2.rank_used : ℤ) ≤ st.max_rank) ∧
    (st.max_rank ≤ 0 → (st.build g f basis seqs).2.rank_used = v.length) := by
  simp only [AmusetTICA.fitOuter, AmusetTICA._build_outer_product] at hsvd hmin hrect
  simp only [AmusetTICA.build, AmusetTICA._build_outer_product]
  rw [hsvd]
  have hP := (buildOuterLoop_preserves g f true (_convert_sequences seqs).1
    (numCols (_convert_sequences seqs).1) basis 0
    [List.replicate (numCols (_convert_sequences seqs).1) 1]
    { st with
      basis_list := basis, tt_u := [], tt_s := [], tt_indices := [],
      traj_lens := (_convert_sequences seqs).2 } 0).1
  rw [hP]
  simp only []
  constructor
  · intro hmr
    by_cases hc : st.max_rank < ((((selectRows v (argsortDesc s)).getD 0 []).length : ℕ) : ℤ)
    · rw [if_pos ⟨hmr, hc⟩]
      have h1 : (List.take st.max_rank.toNat (selectRows v (argsortDesc s))).length ≤
          st.max_rank.toNat := by
        rw [List.length_take]
        exact min_le_left _ _
      omega
    · rw [if_neg (fun hh => hc hh.2)]
      rw [selectRows_length, argsortDesc_length]
      rcases Nat.eq_zero_or_pos s.length with hz | hpos
      · omega
      · have hidx : (argsortDesc s).length = s.length := argsortDesc_length s
        have hne : argsortDesc s ≠ [] := by
          intro hnil
          rw [hnil] at hidx
          simp at hidx
          omega
        obtain ⟨a, t, hat⟩ := List.exists_cons_of_ne_nil hne
        have ha_mem : a ∈ argsortDesc s := by
          rw [hat]
          exact List.mem_cons_self a t
        have ha_lt : a < s.length := argsortDesc_mem ha_mem
        have hrow : (selectRows v (argsortDesc s)).getD 0 [] = v.getD a [] := by
          rw [hat]
          rfl
        have hvmem : v.getD a [] ∈ v := by
          rw [List.getD_eq_getElem v [] (by omega)]
          exact List.getElem_mem _
        have hcolLen := hrect _ hvmem
        rw [← hrow] at hcolLen
        omega
  · intro hle
    rw [if_neg (fun hh => absurd hh.1 (by omega))]
    rw [selectRows_length, argsortDesc_length, hlen]

/-- C5 witness: a concrete fit without rank truncation retains exactly the
rows of the final SVD. -/
theorem c5_rank_used_bound_witness :
    ((AmusetTICA.init 0).build wGauss wSvd [[]] [[[5]]]).2.rank_used =
      ((AmusetTICA.init 0).fitOuter wGauss wSvd [[]] [[[5]]]).length :=
  (c5_rank_used_bound wGauss wSvd [[]] [[[5]]] (AmusetTICA.init 0) [[1]] [1] _ rfl
    (by decide) (by decide) (by decide)).2 (by decide)

/-- C6 witness: a concrete eigendecomposition with eigenvalues 3, 2, 0 yields
one timescale — the maximal strictly positive prefix after the leading
eigenvalue is `[2]`. -/
theorem c6_timescales_scan_witness :
    ((AmusetTICA.init 0).covariance wInv wEig wLog [[1]] [1] 1).timescales.length =
      ((((AmusetTICA.init 0).covariance wInv wEig wLog [[1]] [1] 1).ev_K.drop 1).takeWhile
        (fun z => decide (0 < z.1))).length :=
  (c6_timescales_scan wInv wEig wLog [[1]] [1] 1 (AmusetTICA.init 0) (by decide)).2

theorem getD_map_of_lt {α β : Type} (g : α → β) (l : List α) (i : ℕ) (h : i < l.length)
    (d : β) (d2 : α) : (l.map g).getD i d = g (l.getD i d2) := by
  rw [List.getD_eq_getElem (l.map g) d (by simpa using h), List.getD_eq_getElem l d2 h,
    List.getElem_map]

theorem getD_append_left {α : Type} (a b : List α) (j : ℕ) (h : j < a.length) (d : α) :
    (a ++ b).getD j d = a.getD j d := by
  rw [List.getD_eq_getElem (a ++ b) d (by rw [List.length_append]; omega),
    List.getD_eq_getElem a d h, List.getElem_append_left h]

theorem getD_append_shift {α : Type} (a b : List α) (j : ℕ) (d : α) :
    (a ++ b).getD (a.length + j) d = b.getD j d := by
  induction a with
  | nil => simp
  | cons x xs ih =>
      simp only [List.cons_append, List.length_cons]
      have h : xs.length + 1 + j = (xs.length + j) + 1 := by omega
      rw [h, List.getD_cons_succ, ih]

theorem transposeM_rows {m : Mat} {r : Vec} (hr : r ∈ transposeM m) : r.length = m.length := by
  unfold transposeM transposeP at hr
  obtain ⟨j, _, rfl⟩ := List.mem_map.mp hr
  exact List.length_map m _

theorem transposeM_length (m : Mat) : (transposeM m).length = (m.headD []).length := by
  unfold transposeM transposeP
  rw [List.length_map, List.length_range]

theorem headD_map_range {α : Type} (f : ℕ) (h : 0 < f) (g : ℕ → α) (d : α) :
    ((List.range f).map g).headD d = g 0 := by
  obtain ⟨k, rfl⟩ := Nat.exists_eq_succ_of_ne_zero (Nat.pos_iff_ne_zero.mp h)
  rw [List.range_succ_eq_map]
  rfl

theorem transposeM_transposeM (m : Mat) (f : ℕ) (hne : m ≠ [])
    (hrect : ∀ r ∈ m, r.length = f) (hf : 1 ≤ f) :
    transposeM (transposeM m) = m := by
  have hm0 : (m.headD []).length = f := by
    obtain ⟨r0, m', rfl⟩ := List.exists_cons_of_ne_nil hne
    exact hrect r0 (List.mem_cons_self r0 m')
  have hL : ((transposeM m).headD []).length = m.length := by
    rw [transposeM, transposeP, hm0, headD_map_range f hf _ []]
    exact List.length_map m _
  have key : ∀ i, i < m.length → (transposeM m).map (fun r => r.getD i 0) = m.getD i [] := by
    intro i hi
    have hmem : m.getD i [] ∈ m := by
      rw [List.getD_eq_getElem m [] hi]
      exact List.getElem_mem _
    have hlen : (m.getD i []).length = f := hrect _ hmem
    rw [transposeM, transposeP, List.map_map]
    have hcomp : ((fun r => r.getD i 0) ∘ fun j => m.map (fun r => r.getD j 0)) =
        (fun j => (m.getD i []).getD j 0) := by
      funext j
      exact getD_map_of_lt (fun r => r.getD j 0) m i hi 0 []
    rw [hcomp, hm0, ← hlen, map_getD_range (m.getD i []) 0]
  conv_lhs => rw [transposeM, transposeP]
  rw [hL]
  calc (List.range m.length).map (fun j => (transposeM m).map (fun r => r.getD j 0))
      = (List.range m.length).map (fun i => m.getD i []) :=
        List.map_congr_left (fun i hi => key i (List.mem_range.mp hi))
    _ = m := map_getD_range m []

theorem zipWith_append_map_getD_left (j : ℕ) :
    ∀ (A B : Mat), A.length = B.length → (∀ r ∈ A, j < r.length) →
      (List.zipWith (fun r t => r ++ t) A B).map (fun r => r.getD j 0) =
        A.map (fun r => r.getD j 0)
  | [], [], _, _ => rfl
  | [], _ :: _, h, _ => by simp at h
  | _ :: _, [], h, _ => by simp at h
  | a :: A, b :: B, h, hj => by
      simp only [List.zipWith_cons_cons, List.map_cons]
      rw [getD_append_left a b j (hj a (List.mem_cons_self a A)) 0]
      rw [zipWith_append_map_getD_left j A B (by simpa using h)
        (fun r hr => hj r (List.mem_cons_of_mem a hr))]

theorem zipWith_append_map_getD_right (cA j : ℕ) :
    ∀ (A B : Mat), A.length = B.length → (∀ r ∈ A, r.length = cA) →
      (List.zipWith (fun r t => r ++ t) A B).map (fun r => r.getD (cA + j) 0) =
        B.map (fun r => r.getD j 0)
  | [], [], _, _ => rfl
  | [], _ :: _, h, _ => by simp at h
  | _ :: _, [], h, _ => by simp at h
  | a :: A, b :: B, h, hr => by
      simp only [List.zipWith_cons_cons, List.map_cons]
      have ha : a.length = cA := hr a (List.mem_cons_self a A)
      have hshift := getD_append_shift a b j 0
      rw [ha] at hshift
      rw [hshift]
      rw [zipWith_append_map_getD_right cA j A B (by simpa using h)
        (fun r hrr => hr r (List.mem_cons_of_mem a hrr))]

theorem transposeM_zipWith_append (A B : Mat) (hlen : A.length = B.length)
    (hA : A ≠ []) (hB : B ≠ [])
    (hrectA : ∀ r ∈ A, r.length = (A.headD []).length) :
    transposeM (List.zipWith (fun r t => r ++ t) A B) = transposeM A ++ transposeM B := by
  obtain ⟨a0, A', rfl⟩ := List.exists_cons_of_ne_nil hA
  obtain ⟨b0, B', rfl⟩ := List.exists_cons_of_ne_nil hB
  conv_lhs => rw [transposeM, transposeP]
  simp only [List.zipWith_cons_cons, List.headD_cons, List.length_append]
  rw [List.range_add, List.map_append, List.map_map]
  congr 1
  · rw [transposeM, transposeP]
    simp only [List.headD_cons]
    apply List.map_congr_left
    intro j hj
    have hj2 : j < a0.length := List.mem_range.mp hj
    exact zipWith_append_map_getD_left j (a0 :: A') (b0 :: B') hlen
      (fun r hr => by rw [hrectA r hr]; simpa using hj2)
  · rw [transposeM, transposeP]
    simp only [List.headD_cons]
    apply List.map_congr_left
    intro j _
    simp only [Function.comp_apply]
    exact zipWith_append_map_getD_right a0.length j (a0 :: A') (b0 :: B') hlen
      (fun r hr => by rw [hrectA r hr]; rfl)

theorem hstack_cons (m : Mat) (ms : List Mat) (hne : ms ≠ []) :
    hstack (m :: ms) = List.zipWith (fun r t => r ++ t) m (hstack ms) := by
  obtain ⟨m2, ms', rfl⟩ := List.exists_cons_of_ne_nil hne
  rfl

theorem hstack_length (f : ℕ) :
    ∀ (ms : List Mat), ms ≠ [] → (∀ m ∈ ms, m.length = f) → (hstack ms).length = f
  | [], h, _ => absurd rfl h
  | [m], _, hf => hf m (List.mem_cons_self m [])
  | m :: m2 :: ms, _, hf => by
      rw [hstack_cons m (m2 :: ms) (by simp)]
      rw [List.length_zipWith]
      rw [hstack_length f (m2 :: ms) (by simp) (fun x hx => hf x (List.mem_cons_of_mem m hx))]
      rw [hf m (List.mem_cons_self m _)]
      exact min_self f

theorem headRow_length (t : Mat) (f : ℕ) (hne : t ≠ []) (hrect : ∀ r ∈ t, r.length = f) :
    (t.headD []).length = f := by
  obtain ⟨r0, t', rfl⟩ := List.exists_cons_of_ne_nil hne
  exact hrect r0 (List.mem_cons_self r0 t')

theorem transposeM_len_of_rect (t : Mat) (f : ℕ) (hne : t ≠ [])
    (hrect : ∀ r ∈ t, r.length = f) : (transposeM t).length = f := by
  rw [transposeM_length, headRow_length t f hne hrect]

theorem transposeM_headD_length (m : Mat) (f : ℕ) (hne : m ≠ [])
    (hrect : ∀ r ∈ m, r.length = f) (hf : 1 ≤ f) :
    ((transposeM m).headD []).length = m.length := by
  rw [transposeM, transposeP, headRow_length m f hne hrect, headD_map_range f hf _ []]
  exact List.length_map m _

theorem exists_append_of_mem_zipWith {r : Vec} :
    ∀ {A B : Mat}, r ∈ List.zipWith (fun a b => a ++ b) A B →
      ∃ a ∈ A, ∃ b ∈ B, r = a ++ b
  | [], _, h => by simp at h
  | _ :: _, [], h => by simp at h
  | a :: A, b :: B, h => by
      rcases List.mem_cons.mp h with h | h
      · exact ⟨a, List.mem_cons_self a A, b, List.mem_cons_self b B, h⟩
      · obtain ⟨a2, ha2, b2, hb2, rfl⟩ := exists_append_of_mem_zipWith h
        exact ⟨a2, List.mem_cons_of_mem a ha2, b2, List.mem_cons_of_mem b hb2, rfl⟩

theorem hstack_row_lengths (f : ℕ) (hf : 1 ≤ f) :
    ∀ (trajs : List Mat), trajs ≠ [] → (∀ t ∈ trajs, t ≠ []) →
      (∀ t ∈ trajs, ∀ r ∈ t, r.length = f) →
      ∀ r ∈ hstack (trajs.map transposeM), r.length = (trajs.map List.length).sum
  | [], h, _, _ => absurd rfl h
  | [t], _, _, _ => by
      intro r hr
      simp only [List.map_cons, List.map_nil, List.sum_cons, List.sum_nil]
      have := transposeM_rows (show r ∈ transposeM t by simpa [hstack] using hr)
      omega
  | t :: t2 :: ts, _, htne, hrect => by
      intro r hr
      rw [List.map_cons, hstack_cons (transposeM t) ((t2 :: ts).map transposeM)
        (by simp)] at hr
      obtain ⟨a, ha, b, hb, rfl⟩ := exists_append_of_mem_zipWith hr
      have h1 : a.length = t.length := transposeM_rows ha
      have h2 : b.length = ((t2 :: ts).map List.length).sum :=
        hstack_row_lengths f hf (t2 :: ts) (by simp)
          (fun x hx => htne x (List.mem_cons_of_mem t hx))
          (fun x hx => hrect x (List.mem_cons_of_mem t hx)) b hb
      rw [List.length_append, h1, h2]
      simp

theorem transposeM_hstack_join (f : ℕ) (hf : 1 ≤ f) :
    ∀ (trajs : List Mat), trajs ≠ [] → (∀ t ∈ trajs, t ≠ []) →
      (∀ t ∈ trajs, ∀ r ∈ t, r.length = f) →
      transposeM (hstack (trajs.map transposeM)) = trajs.flatten
  | [], h, _, _ => absurd rfl h
  | [t], _, htne, hrect => by
      show transposeM (hstack [transposeM t]) = _
      rw [show hstack [transposeM t] = transposeM t from rfl]
      rw [transposeM_transposeM t f (htne t (by simp)) (fun r hr => hrect t (by simp) r hr) hf]
      simp
  | t :: t2 :: ts, _, htne, hrect => by
      have htn : t ≠ [] := htne t (List.mem_cons_self t _)
      have htr : ∀ r ∈ t, r.length = f := hrect t (List.mem_cons_self t _)
      have hAlen : (transposeM t).length = f := transposeM_len_of_rect t f htn htr
      have hBlen : (hstack ((t2 :: ts).map transposeM)).length = f := by
        apply hstack_length f
        · simp
        · intro m hm
          obtain ⟨x, hx, rfl⟩ := List.mem_map.mp hm
          exact transposeM_len_of_rect x f (htne x (List.mem_cons_of_mem t hx))
            (hrect x (List.mem_cons_of_mem t hx))
      rw [List.map_cons, hstack_cons (transposeM t) ((t2 :: ts).map transposeM) (by simp)]
      rw [transposeM_zipWith_append (transposeM t) (hstack ((t2 :: ts).map transposeM))
        (by rw [hAlen, hBlen])
        (by rw [← List.length_pos_iff_ne_nil, hAlen]; omega)
        (by rw [← List.length_pos_iff_ne_nil, hBlen]; omega)
        (by
          intro r hr
          rw [transposeM_rows hr, transposeM_headD_length t f htn htr hf])]
      rw [transposeM_transposeM t f htn htr hf]
      rw [transposeM_hstack_join f hf (t2 :: ts) (by simp)
        (fun x hx => htne x (List.mem_cons_of_mem t hx))
        (fun x hx => hrect x (List.mem_cons_of_mem t hx))]
      simp

theorem sliceByLens_flatten {α : Type} :
    ∀ (ls : List (List α)), sliceByLens ls.flatten (ls.map List.length) = ls
  | [] => rfl
  | l :: ls => by
      rw [List.flatten_cons, List.map_cons, sliceByLens, List.take_left, List.drop_left]
      rw [sliceByLens_flatten ls]

/-- C3 amended: the Sequence Adapter round-trip
`_convert_to_sequences(*_convert_sequences(trajs)) == trajs` holds for every
non-empty list of non-empty trajectories with a common feature count f ≥ 1,
provided f does not exceed the total frame count — then the orientation
auto-detection of `_convert_to_sequences` transposes back to frame-major
order and the slices reproduce the input exactly. -/
theorem c3_roundtrip_amended (trajs : List Mat) (f : ℕ)
    (hne : trajs ≠ [])
    (htne : ∀ t ∈ trajs, t ≠ [])
    (hrect : ∀ t ∈ trajs, ∀ r ∈ t, r.length = f)
    (hf : 1 ≤ f)
    (hT : f ≤ (trajs.map List.length).sum) :
    _convert_to_sequences (_convert_sequences trajs).1 (_convert_sequences trajs).2 = trajs := by
  simp only [_convert_sequences, _convert_to_sequences]
  have hdlen : (hstack (trajs.map transposeM)).length = f := by
    apply hstack_length f
    · simpa using hne
    · intro m hm
      obtain ⟨x, hx, rfl⟩ := List.mem_map.mp hm
      exact transposeM_len_of_rect x f (htne x hx) (hrect x hx)
  have hrow0 : ((hstack (trajs.map transposeM)).getD 0 []).length =
      (trajs.map List.length).sum := by
    apply hstack_row_lengths f hf trajs hne htne hrect
    rw [List.getD_eq_getElem _ [] (by omega : 0 < (hstack (trajs.map transposeM)).length)]
    exact List.getElem_mem _
  rw [if_neg (by rw [hrow0, hdlen]; omega)]
  rw [transposeM_hstack_join f hf trajs hne htne hrect]
  exact sliceByLens_flatten trajs

/-- C3 counterexample: one trajectory of a single frame with two features has
more features than total frames, so the orientation auto-detection keeps the
feature-major matrix unsliced-transposed and the round trip returns `[[[1]]]`
instead of `[[[1, 2]]]`. -/
theorem c3_roundtrip_counterexample :
    ¬ (_convert_to_sequences (_convert_sequences [[[1, 2]]]).1
        (_convert_sequences [[[1, 2]]]).2 = ([[[1, 2]]] : List Mat)) := by decide

/-- C3 witness: two one-feature trajectories of lengths 2 and 1 round-trip
exactly. -/
theorem c3_roundtrip_amended_witness :
    _convert_to_sequences (_convert_sequences [[[3], [4]], [[5]]]).1
      (_convert_sequences [[[3], [4]], [[5]]]).2 = ([[[3], [4]], [[5]]] : List Mat) :=
  c3_roundtrip_amended [[[3], [4]], [[5]]] 1 (by decide)
    (by decide) (by decide) (by decide) (by decide)

theorem dot_eq_sum : ∀ (a b : Vec),
    dot a b = ∑ k ∈ Finset.range (min a.length b.length), a.getD k 0 * b.getD k 0
  | [], b => by simp [dot]
  | _ :: _, [] => by simp [dot]
  | x :: as, y :: bs => by
      have htail := dot_eq_sum as bs
      show (x * y + (List.zipWith (fun p q => p * q) as bs).sum) = _
      rw [show (List.zipWith (fun p q => p * q) as bs).sum = dot as bs from rfl, htail]
      rw [List.length_cons, List.length_cons, Nat.succ_min_succ, Finset.sum_range_succ']
      simp only [List.getD_cons_succ, List.getD_cons_zero]
      ring

theorem getD_range (n j : ℕ) (hj : j < n) (d : ℕ) : (List.range n).getD j d = j := by
  rw [List.getD_eq_getElem _ d (by simpa using hj), List.getElem_range]

theorem transposeM_getD (C : Mat) (j : ℕ) (hj : j < (C.headD []).length) :
    (transposeM C).getD j [] = C.map (fun r => r.getD j 0) := by
  rw [transposeM, transposeP]
  rw [getD_map_of_lt _ (List.range (C.headD []).length) j (by simpa using hj) [] 0]
  rw [getD_range _ j hj]

theorem dot_diagRow (d : Vec) (i : ℕ) (c : Vec) (hi : i < d.length) (hic : i < c.length) :
    dot ((List.range d.length).map (fun j => if i = j then d.getD i 0 else 0)) c =
      d.getD i 0 * c.getD i 0 := by
  rw [dot_eq_sum]
  have hlen : ((List.range d.length).map (fun j => if i = j then d.getD i 0 else 0)).length =
      d.length := by simp
  rw [hlen]
  have hmem : i ∈ Finset.range (min d.length c.length) := Finset.mem_range.mpr (by omega)
  rw [Finset.sum_eq_single_of_mem i hmem]
  · rw [getD_map_of_lt _ (List.range d.length) i (by simpa using hi) 0 0, getD_range _ i hi]
    simp
  · intro k hk hki
    have hkd : k < d.length := by
      have := Finset.mem_range.mp hk
      omega
    rw [getD_map_of_lt _ (List.range d.length) k (by simpa using hkd) 0 0, getD_range _ k hkd]
    rw [if_neg (fun hh => hki hh.symm)]
    ring

theorem diagMat_length (d : Vec) : (diagMat d).length = d.length := by
  unfold diagMat
  simp

theorem matMul_length (A B : Mat) : (matMul A B).length = A.length := List.length_map A _

theorem zipWith_eq_map_range {α β γ : Type} (f2 : α → β → γ) (da : α) (db : β) :
    ∀ (d : List α) (w : List β), d.length = w.length →
      List.zipWith f2 d w = (List.range d.length).map (fun i => f2 (d.getD i da) (w.getD i db))
  | [], [], _ => rfl
  | [], _ :: _, h => by simp at h
  | _ :: _, [], h => by simp at h
  | x :: d, r :: w, h => by
      simp only [List.zipWith_cons_cons, List.length_cons, List.range_succ_eq_map,
        List.map_cons, List.map_map]
      rw [zipWith_eq_map_range f2 da db d w (by simpa using h)]
      simp only [Function.comp_def, List.getD_cons_succ, List.getD_cons_zero]

theorem matMul_diag (d : Vec) (w : Mat) (hlw : w.length = d.length) (hwne : w ≠ [])
    (hrect : ∀ r ∈ w, r.length = (w.headD []).length) :
    matMul (diagMat d) w = List.zipWith (fun x r => r.map (fun y => x * y)) d w := by
  rw [zipWith_eq_map_range _ 0 [] d w hlw.symm]
  rw [show matMul (diagMat d) w =
    (diagMat d).map (fun r => (transposeM w).map (fun c => dot r c)) from rfl]
  rw [diagMat, List.map_map]
  apply List.map_congr_left
  intro i hi
  have hid : i < d.length := List.mem_range.mp hi
  have hiw : i < w.length := by omega
  have hwmem : w.getD i [] ∈ w := by
    rw [List.getD_eq_getElem w [] hiw]
    exact List.getElem_mem hiw
  have hwilen : (w.getD i []).length = (w.headD []).length := hrect _ hwmem
  simp only [Function.comp_apply]
  rw [transposeM, transposeP, List.map_map]
  have hptw : ((fun c => dot ((List.range d.length).map
      (fun j => if i = j then d.getD i 0 else 0)) c) ∘
        (fun j => w.map (fun r => r.getD j 0))) =
      (fun k => d.getD i 0 * (w.getD i []).getD k 0) := by
    funext k
    simp only [Function.comp_apply]
    rw [dot_diagRow d i (w.map (fun r => r.getD k 0)) hid (by simpa using hiw)]
    rw [getD_map_of_lt _ w i hiw 0 []]
  rw [hptw]
  rw [show (fun k => d.getD i 0 * (w.getD i []).getD k 0) =
    ((fun y => d.getD i 0 * y) ∘ (fun k => (w.getD i []).getD k 0)) from rfl]
  rw [← List.map_map, ← hwilen, map_getD_range]


theorem dot_swap (a c : Vec) (B : Mat) (hBrect : ∀ r ∈ B, r.length = (B.headD []).length) :
    dot ((transposeM B).map (fun cc => dot a cc)) c = dot a (B.map (fun b => dot b c)) := by
  rw [dot_eq_sum, dot_eq_sum]
  have hL : ((transposeM B).map (fun cc => dot a cc)).length = (B.headD []).length := by
    rw [List.length_map, transposeM_length]
  have hR : (B.map (fun b => dot b c)).length = B.length := List.length_map B _
  rw [hL, hR]
  have hterm : ∀ k ∈ Finset.range (min (B.headD []).length c.length),
      ((transposeM B).map (fun cc => dot a cc)).getD k 0 * c.getD k 0 =
        ∑ m ∈ Finset.range (min a.length B.length),
          (a.getD m 0 * (B.getD m []).getD k 0) * c.getD k 0 := by
    intro k hk
    have hkc : k < (B.headD []).length := by
      have := Finset.mem_range.mp hk
      omega
    rw [getD_map_of_lt _ (transposeM B) k (by rw [transposeM_length]; exact hkc) 0 []]
    rw [transposeM_getD B k hkc]
    rw [dot_eq_sum]
    rw [List.length_map]
    rw [Finset.sum_mul]
    apply Finset.sum_congr rfl
    intro m hm
    have hmB : m < B.length := by
      have := Finset.mem_range.mp hm
      omega
    rw [getD_map_of_lt _ B m hmB 0 []]
  rw [Finset.sum_congr rfl hterm]
  have hterm2 : ∀ m ∈ Finset.range (min a.length B.length),
      a.getD m 0 * (B.map (fun b => dot b c)).getD m 0 =
        ∑ k ∈ Finset.range (min (B.headD []).length c.length),
          (a.getD m 0 * (B.getD m []).getD k 0) * c.getD k 0 := by
    intro m hm
    have hmB : m < B.length := by
      have := Finset.mem_range.mp hm
      omega
    rw [getD_map_of_lt _ B m hmB 0 []]
    rw [dot_eq_sum]
    have hBm : (B.getD m []).length = (B.headD []).length := by
      apply hBrect
      rw [List.getD_eq_getElem B [] hmB]
      exact List.getElem_mem hmB
    rw [hBm, Finset.mul_sum]
    apply Finset.sum_congr rfl
    intro k _
    ring
  rw [Finset.sum_congr rfl hterm2]
  exact Finset.sum_comm

theorem matMul_headD_length (B C : Mat) (hBne : B ≠ []) :
    ((matMul B C).headD []).length = (C.headD []).length := by
  obtain ⟨b0, B', rfl⟩ := List.exists_cons_of_ne_nil hBne
  show ((transposeM C).map (fun c => dot b0 c)).length = _
  rw [List.length_map, transposeM_length]

theorem matMul_assoc (A B C : Mat) (hBne : B ≠ [])
    (hBrect : ∀ r ∈ B, r.length = (B.headD []).length) :
    matMul (matMul A B) C = matMul A (matMul B C) := by
  show (A.map (fun r => (transposeM B).map (fun c => dot r c))).map
      (fun r => (transposeM C).map (fun c => dot r c)) =
    A.map (fun r => (transposeM (matMul B C)).map (fun c => dot r c))
  rw [List.map_map]
  apply List.map_congr_left
  intro a _
  simp only [Function.comp_apply]
  have hTMC : transposeM (matMul B C) =
      (List.range ((matMul B C).headD []).length).map
        (fun j => (matMul B C).map (fun r => r.getD j 0)) := rfl
  rw [hTMC, matMul_headD_length B C hBne, List.map_map]
  have hTC : transposeM C =
      (List.range ((C.headD []).length)).map (fun j => C.map (fun r => r.getD j 0)) := rfl
  rw [hTC, List.map_map]
  apply List.map_congr_left
  intro j hj
  have hjc : j < (C.headD []).length := List.mem_range.mp hj
  simp only [Function.comp_apply]
  have hcol : (matMul B C).map (fun r => r.getD j 0) =
      B.map (fun b => dot b (C.map (fun r => r.getD j 0))) := by
    show (B.map (fun b => (transposeM C).map (fun c => dot b c))).map (fun r => r.getD j 0) = _
    rw [List.map_map]
    apply List.map_congr_left
    intro b _
    simp only [Function.comp_apply]
    rw [getD_map_of_lt _ (transposeM C) j (by rw [transposeM_length]; exact hjc) 0 []]
    rw [transposeM_getD C j hjc]
  rw [hcol]
  exact dot_swap a (C.map (fun r => r.getD j 0)) B hBrect

theorem zip_scale_inv : ∀ (s : Vec) (v : Mat), s.length = v.length → (∀ x ∈ s, x ≠ 0) →
    List.zipWith (fun x r => r.map (fun y => x * y)) (s.map (fun x => 1 / x))
      (List.zipWith (fun x r => r.map (fun y => x * y)) s v) = v
  | [], [], _, _ => rfl
  | [], _ :: _, h, _ => by simp at h
  | _ :: _, [], h, _ => by simp at h
  | x :: s, r :: v, h, hx => by
      simp only [List.map_cons, List.zipWith_cons_cons, List.map_map]
      have hx0 : x ≠ 0 := hx x (List.mem_cons_self x s)
      rw [zip_scale_inv s v (by simpa using h) (fun y hy => hx y (List.mem_cons_of_mem x hy))]
      have hid : ((fun y => 1 / x * y) ∘ fun y => x * y) = (fun y => y) := by
        funext y
        simp only [Function.comp_apply, one_div]
        exact inv_mul_cancel_left₀ hx0 y
      rw [hid, List.map_id']

theorem selectRows_range_self {α : Type} (m : List (List α)) :
    selectRows m (List.range m.length) = m := by
  unfold selectRows
  exact map_getD_range m []

theorem castC_length (m : Mat) : (castC m).length = m.length := List.length_map m _

theorem exists_of_mem_zipWith {α β γ : Type} {f2 : α → β → γ} {c : γ} :
    ∀ {A : List α} {B : List β}, c ∈ List.zipWith f2 A B → ∃ a ∈ A, ∃ b ∈ B, c = f2 a b
  | [], _, h => by simp at h
  | _ :: _, [], h => by simp at h
  | a :: A, b :: B, h => by
      rcases List.mem_cons.mp h with h | h
      · exact ⟨a, List.mem_cons_self a A, b, List.mem_cons_self b B, h⟩
      · obtain ⟨a2, ha2, b2, hb2, rfl⟩ := exists_of_mem_zipWith h
        exact ⟨a2, List.mem_cons_of_mem a ha2, b2, List.mem_cons_of_mem b hb2, rfl⟩

theorem zip_scale_rect (s : Vec) (v : Mat) (hvne : v ≠ []) (hsne : s ≠ [])
    (hvrect : ∀ r ∈ v, r.length = (v.headD []).length) :
    ∀ r ∈ List.zipWith (fun x r => r.map (fun y => x * y)) s v,
      r.length = ((List.zipWith (fun x r => r.map (fun y => x * y)) s v).headD []).length := by
  obtain ⟨x0, s', rfl⟩ := List.exists_cons_of_ne_nil hsne
  obtain ⟨r0, v', rfl⟩ := List.exists_cons_of_ne_nil hvne
  intro r hr
  obtain ⟨a, _, b, hb, rfl⟩ := exists_of_mem_zipWith hr
  simp only [List.zipWith_cons_cons, List.headD_cons, List.length_map]
  rw [hvrect b hb]
  rfl

/-- C2: without rank truncation (max_rank ≤ 0), `build` followed by
`transform` on the same trajectories with `_do_amuset_tica = False` (no
Koopman projection) and the explicit selector of all `rank_used` components
returns exactly the per-trajectory slices of the transposed reduced
coordinates that `build` returned: the apply-mode path replays the fit-mode
linear transforms.  The hypotheses state, for the SVD oracle's output
`(u, s, v)` at the final fit-mode outer product, the exact-arithmetic
validity of the factorisation: `u * diag(s) * v` reconstructs the input,
`uᵀu` acts as the identity, the singular values are nonzero (and at least
one exists), and the shapes agree. -/
theorem c2_transform_replays_build (g : GaussFn) (f : SvdFn) (cinv : CInvFn)
    (basis : BasisList) (seqs : List Mat) (st : AmusetTICA) (urv : Bool)
    (u : Mat) (s : Vec) (v : Mat)
    (hle : st.max_rank ≤ 0)
    (hsvd : f (st.fitOuter g f basis seqs) = (u, s, v))
    (hrecon : matMul u (matMul (diagMat s) v) = st.fitOuter g f basis seqs)
    (hUinv : ∀ w : Mat, w.length = s.length → matMul (transposeM u) (matMul u w) = w)
    (hs0 : ∀ x ∈ s, x ≠ 0)
    (hsne : s ≠ [])
    (hslen : s.length = v.length)
    (hvrect : ∀ r ∈ v, r.length = (v.headD []).length)
    (hurect : ∀ r ∈ u, r.length = s.length)
    (hune : u ≠ []) :
    (st.build g f basis seqs).2.transform g f cinv seqs
        (Sum.inr (List.range (st.build g f basis seqs).2.rank_used)) urv false =
      sliceByLens (ctransposeM (castC (st.build g f basis seqs).1.1))
        (st.build g f basis seqs).1.2 := by
  have hfit : st.fitOuter g f basis seqs =
      (buildOuterLoop g f true (_convert_sequences seqs).1
        (numCols (_convert_sequences seqs).1) basis 0
        [List.replicate (numCols (_convert_sequences seqs).1) 1]
        { st with
          basis_list := basis, tt_u := [], tt_s := [], tt_indices := [],
          traj_lens := (_convert_sequences seqs).2 } 0).1 := rfl
  obtain ⟨w1, w2, w3, w4, w5⟩ := buildOuterLoop_nonpos_all g f true (_convert_sequences seqs).1
    (numCols (_convert_sequences seqs).1) basis 0
    [List.replicate (numCols (_convert_sequences seqs).1) 1]
    { st with
      basis_list := basis, tt_u := [], tt_s := [], tt_indices := [],
      traj_lens := (_convert_sequences seqs).2 } 0 hle
  obtain ⟨p1, p2, p3, p4⟩ := buildOuterLoop_preserves g f true (_convert_sequences seqs).1
    (numCols (_convert_sequences seqs).1) basis 0
    [List.replicate (numCols (_convert_sequences seqs).1) 1]
    { st with
      basis_list := basis, tt_u := [], tt_s := [], tt_indices := [],
      traj_lens := (_convert_sequences seqs).2 } 0
  have hsvdLP := hsvd
  rw [hfit] at hsvdLP
  have htu : (st.build g f basis seqs).2.tt_u = [u] := by
    simp only [AmusetTICA.build, AmusetTICA._build_outer_product, hsvdLP, w2]
    rfl
  have hts : (st.build g f basis seqs).2.tt_s = [s] := by
    simp only [AmusetTICA.build, AmusetTICA._build_outer_product, hsvdLP, w3]
    rfl
  have hti : (st.build g f basis seqs).2.tt_indices = [argsortDesc s] := by
    simp only [AmusetTICA.build, AmusetTICA._build_outer_product, hsvdLP, w4]
    rfl
  have hbmr : (st.build g f basis seqs).2.max_rank = st.max_rank := by
    simp only [AmusetTICA.build, AmusetTICA._build_outer_product, p1]
  have hbbl : (st.build g f basis seqs).2.basis_list = basis := by
    simp only [AmusetTICA.build, AmusetTICA._build_outer_product, p2]
  have hLPmr : (buildOuterLoop g f true (_convert_sequences seqs).1
      (numCols (_convert_sequences seqs).1) basis 0
      [List.replicate (numCols (_convert_sequences seqs).1) 1]
      { st with
        basis_list := basis, tt_u := [], tt_s := [], tt_indices := [],
        traj_lens := (_convert_sequences seqs).2 } 0).2.1.max_rank ≤ 0 := by
    rw [p1]
    exact hle
  have hcvs : (st.build g f basis seqs).1.1 = selectRows v (argsortDesc s) := by
    simp only [AmusetTICA.build, AmusetTICA._build_outer_product, hsvdLP, p1]
    rw [if_neg (fun hh => absurd hh.1 (by omega))]
  have hbrk : (st.build g f basis seqs).2.rank_used = (selectRows v (argsortDesc s)).length := by
    simp only [AmusetTICA.build, AmusetTICA._build_outer_product, hsvdLP, p1]
    rw [if_neg (fun hh => absurd hh.1 (by omega))]
  have hlens : (st.build g f basis seqs).1.2 = (_convert_sequences seqs).2 := by
    simp only [AmusetTICA.build]
  have hble : (st.build g f basis seqs).2.max_rank ≤ 0 := by
    rw [hbmr]
    exact hle
  have hsl : 0 < s.length := List.length_pos.mpr hsne
  have hvne : v ≠ [] := by
    intro h
    rw [h] at hslen
    simp only [List.length_nil] at hslen
    omega
  have hvl : 0 < v.length := List.length_pos.mpr hvne
  have hTune : transposeM u ≠ [] := by
    rw [← List.length_pos_iff_ne_nil, transposeM_length,
      headRow_length u s.length hune hurect]
    exact hsl
  have hTurect : ∀ r ∈ transposeM u, r.length = ((transposeM u).headD []).length := by
    intro r hr
    rw [transposeM_rows hr, transposeM_headD_length u s.length hune hurect hsl]
  have halg : matMul (matMul (diagMat (s.map (fun x => 1 / x))) (transposeM u))
      (st.fitOuter g f basis seqs) = v := by
    rw [matMul_assoc (diagMat (s.map (fun x => 1 / x))) (transposeM u)
      (st.fitOuter g f basis seqs) hTune hTurect]
    rw [← hrecon]
    rw [hUinv (matMul (diagMat s) v) (by rw [matMul_length, diagMat_length])]
    rw [matMul_diag s v hslen.symm hvne hvrect]
    rw [matMul_diag (s.map (fun x => 1 / x))
      (List.zipWith (fun x r => r.map (fun y => x * y)) s v)
      (by rw [List.length_zipWith, List.length_map]; omega)
      (by rw [← List.length_pos_iff_ne_nil, List.length_zipWith]; omega)
      (zip_scale_rect s v hvne hsne hvrect)]
    exact zip_scale_inv s v hslen hs0
  obtain ⟨va1, va2, va3, va4, va5⟩ := buildOuterLoop_nonpos_all g f false
    (_convert_sequences seqs).1 (numCols (_convert_sequences seqs).1) basis 0
    [List.replicate (numCols (_convert_sequences seqs).1) 1]
    ((st.build g f basis seqs).2) 0 hble
  have hOfit : pureOuterLoop g (_convert_sequences seqs).1
      (numCols (_convert_sequences seqs).1) basis 0
      [List.replicate (numCols (_convert_sequences seqs).1) 1] =
      st.fitOuter g f basis seqs := (hfit.trans w1).symm
  have hgls : ([s] : List Vec).getLastD [] = s := rfl
  have hglu : ([u] : List Mat).getLastD [] = u := rfl
  have hgli : ([argsortDesc s] : List (List ℕ)).getLastD [] = argsortDesc s := rfl
  have hsel : selectRows (castC (selectRows v (argsortDesc s)))
      (List.range (selectRows v (argsortDesc s)).length) =
      castC (selectRows v (argsortDesc s)) := by
    conv_lhs => rw [← castC_length (selectRows v (argsortDesc s))]
    exact selectRows_range_self _
  simp only [AmusetTICA.transform, AmusetTICA._transform, AmusetTICA._build_outer_product,
    Bool.false_eq_true, if_false]
  rw [hbbl, htu, hts, hti, hbrk, hcvs, hlens]
  rw [va1, hOfit, hgls, hglu, hgli, halg]
  rw [if_neg (fun hh => absurd hh.1 (by rw [hbmr] at hh ⊢; omega))]
  rw [hsel]

theorem wSvd_uinv_one (w : Mat) (hw : w.length = 1) :
    matMul (transposeM [[1]]) (matMul [[1]] w) = w := by
  have hwne : w ≠ [] := by
    intro h
    rw [h] at hw
    exact absurd hw (by simp)
  obtain ⟨r, rest, rfl⟩ := List.exists_cons_of_ne_nil hwne
  have hrest : rest = [] := List.length_eq_zero.mp (by simpa using hw)
  subst hrest
  have h1 : matMul [[1]] [r] = [(List.range r.length).map (fun j => r.getD j 0)] := by
    simp [matMul, transposeM, transposeP, dot]
  have h2 : transposeM [[(1 : ℚ)]] = [[1]] := rfl
  rw [h1, map_getD_range r 0, h2, h1, map_getD_range r 0]

/-- C2 witness: a concrete one-feature fit with `max_rank = 0` followed by
`transform` reproduces the slices of the reduced coordinates. -/
theorem c2_transform_replays_build_witness :
    ((AmusetTICA.init 0).build wGauss wSvd [[]] [[[5]]]).2.transform wGauss wSvd wCInv [[[5]]]
        (Sum.inr (List.range ((AmusetTICA.init 0).build wGauss wSvd [[]] [[[5]]]).2.rank_used))
        true false =
      sliceByLens (ctransposeM (castC ((AmusetTICA.init 0).build wGauss wSvd [[]] [[[5]]]).1.1))
        ((AmusetTICA.init 0).build wGauss wSvd [[]] [[[5]]]).1.2 :=
  c2_transform_replays_build wGauss wSvd wCInv [[]] [[[5]]] (AmusetTICA.init 0) true
    [[1]] [1] _ (by decide) rfl (by with_unfolding_all rfl)
    (fun w hw => wSvd_uinv_one w hw) (by decide) (by decide) (by decide) (by decide)
    (by decide) (by decide)
